import Mathlib

/-!
# Verification of the `bstat` nice-number rounding and adaptive binning code

This file is a shallow embedding, over `ℚ`, of the numeric core of
`src/bstat/data.py`: the `round_up_to_nice` / `round_down_to_nice` /
`round_to_nice` family, the `AutoBins` bucket-boundary algorithm, and
`get_bin_index_for_value`.  Python floats are modelled as exact rationals
(real-number semantics); the quantum-shrinking loops, which the source runs
without a bound, are modelled with explicit fuel, and we prove that fuel `3`
always suffices (the loop provably returns within three iterations once the
starting quantum is the smallest power of ten at least the tolerance), so the
fuelled function agrees with the unbounded loop.  Python `assert` statements
and raised exceptions are modelled as error results.
-/

-- The core `Rat` operations are `@[irreducible]`, which blocks `decide` on
-- concrete rational computations; re-expose them for definitional unfolding.
attribute [local semireducible] Rat.mul Rat.inv Rat.add Rat.sub

namespace BStat

/-- Smallest `k : ℕ` with `n ≤ d * 10 ^ k`, computed with explicit fuel so the
kernel can evaluate it (fuel `n` always suffices, see `findExp_spec`). -/
def findExp (n : ℕ) : ℕ → ℕ → ℕ
  | _, 0 => 0
  | d, fuel + 1 => if n ≤ d then 0 else findExp n (10 * d) fuel + 1

/-- Largest `k : ℕ` with `n * 10 ^ k ≤ d`, for `0 < n ≤ d`, with explicit fuel
(fuel `d` always suffices, see `findNeg_spec`). -/
def findNeg : ℕ → ℕ → ℕ → ℕ
  | _, _, 0 => 0
  | n, d, fuel + 1 => if 10 * n ≤ d then findNeg (10 * n) d fuel + 1 else 0

/-- `math.ceil(math.log10 t)` for a positive rational `t`: the least `e : ℤ`
with `t ≤ 10 ^ e`.  Structurally recursive (kernel-evaluable); proved equal to
`Int.clog 10 t` in `ratClog10_eq_clog`. -/
def ratClog10 (t : ℚ) : ℤ :=
  if t.den ≤ t.num.toNat then (findExp t.num.toNat t.den t.num.toNat : ℤ)
  else -(findNeg t.num.toNat t.den t.den : ℤ)

/-- `quantum = math.pow(10, math.ceil(math.log10(tolerance)))` from
`round_up_to_nice` / `round_down_to_nice`: the smallest power of ten that is
at least `t` (for `0 < t`). -/
def niceQuantum (t : ℚ) : ℚ := (10 : ℚ) ^ (ratClog10 t)

/-- One candidate of the rounding-up loop: `math.ceil(x / quantum) * quantum`. -/
def upStep (x q : ℚ) : ℚ := (⌈x / q⌉ : ℚ) * q

/-- One candidate of the rounding-down loop: `math.floor(x / quantum) * quantum`. -/
def downStep (x q : ℚ) : ℚ := (⌊x / q⌋ : ℚ) * q

/-- The `itertools.cycle([2, 5])` divisor stream, indexed by iteration. -/
def cycleDivisor (i : ℕ) : ℚ := if i % 2 = 0 then 2 else 5

/-- The loop of `round_up_to_nice` (src/bstat/data.py lines 51-56), with
explicit fuel.  The `assert x <= result` of line 53 is modelled as a `none`
result when violated. -/
def upLoop (x t : ℚ) : ℚ → ℕ → ℕ → Option ℚ
  | _, _, 0 => none
  | q, i, fuel + 1 =>
    let result := upStep x q
    if x ≤ result then
      if result - x ≤ t then some result
      else upLoop x t (q / cycleDivisor i) (i + 1) fuel
    else none

/-- The loop of `round_down_to_nice` (src/bstat/data.py lines 71-76), with
explicit fuel; the `assert result <= x` of line 73 is modelled as `none`. -/
def downLoop (x t : ℚ) : ℚ → ℕ → ℕ → Option ℚ
  | _, _, 0 => none
  | q, i, fuel + 1 =>
    let result := downStep x q
    if result ≤ x then
      if x - result ≤ t then some result
      else downLoop x t (q / cycleDivisor i) (i + 1) fuel
    else none

/-- `round_up_to_nice(x, tolerance=None)` (src/bstat/data.py lines 38-56).
A negative tolerance would make `math.log10` raise in Python; that is the
`none` branch.  Fuel `3` suffices for the loop: see `upLoop_total`. -/
def round_up_to_nice (x : ℚ) (tolerance : Option ℚ) : Option ℚ :=
  if x = 0 then some 0
  else
    let t := tolerance.getD |x / 10|
    if t = 0 then some x
    else if t < 0 then none
    else upLoop x t (niceQuantum t) 0 3

/-- `round_down_to_nice(x, tolerance=None)` (src/bstat/data.py lines 58-76). -/
def round_down_to_nice (x : ℚ) (tolerance : Option ℚ) : Option ℚ :=
  if x = 0 then some 0
  else
    let t := tolerance.getD |x / 10|
    if t = 0 then some x
    else if t < 0 then none
    else downLoop x t (niceQuantum t) 0 3

/-- `nearest(x, values)` (src/bstat/data.py lines 78-87). -/
def nearest (x : ℚ) (values : List ℚ) : ℚ :=
  values.foldl (fun result v => if |v - x| < |result - x| then v else result)
    values.headI

/-- `round_to_nice(x, tolerance=None)` (src/bstat/data.py lines 89-98). -/
def round_to_nice (x : ℚ) (tolerance : Option ℚ) : Option ℚ :=
  match round_down_to_nice x tolerance, round_up_to_nice x tolerance with
  | some d, some u => some (nearest x [d, u])
  | _, _ => none

/-! ## The `AutoBins` bucket-boundary algorithm (src/bstat/data.py lines 128-262)

Python floats are exact rationals here.  The one real-valued operation that has
no rational counterpart is `total_growth ** (1.0 / b)` (line 236): the `b`-th
root of a rational is irrational in general.  It is therefore supplied as an
explicit parameter `root`; the theorems constrain it by the properties the real
root enjoys (`1 < root` and `total_growth ≤ root ^ b`), and concrete witnesses
use inputs whose growth is an exact `b`-th power. -/

/-- The fields set by `AutoBins.__init__`.  `bin_size` is `none` in the
logarithmic branch, which never assigns `self.bin_size`. -/
structure AutoBins where
  lower_bound : ℚ
  bin_size : Option ℚ
  bin_count : ℕ
  bin_boundaries : List ℚ
  logarithmic : Bool
deriving DecidableEq

/-- The distinct values: `values = set(v for (v, c) in values_and_counts)`
(line 157), as a duplicate-free list. -/
def valuesOf (vc : List (ℚ × ℕ)) : List ℚ := (vc.map Prod.fst).dedup

/-- `total_count = sum(c for (v, c) in values_and_counts)` (line 158). -/
def totalCount (vc : List (ℚ × ℕ)) : ℕ := (vc.map Prod.snd).sum

/-- Python's `min` over a non-empty collection. -/
def listMin : List ℚ → ℚ
  | [] => 0
  | v :: rest => rest.foldl min v

/-- Python's `max` over a non-empty collection. -/
def listMax : List ℚ → ℚ
  | [] => 0
  | v :: rest => rest.foldl max v

/-- Floor of `log2`, with explicit fuel so the kernel can evaluate it
(fuel `n` always suffices). -/
def log2Fuel : ℕ → ℕ → ℕ
  | 0, _ => 0
  | fuel + 1, n => if n < 2 then 0 else log2Fuel fuel (n / 2) + 1

/-- `⌊log2 n⌋`; proved equal to `Nat.log 2 n` in `natLog2_eq_log`. -/
def natLog2 (n : ℕ) : ℕ := log2Fuel n n

/-- `round(log2(n))` for `n ≥ 1`, in exact arithmetic: the integer nearest to
`log2 n` (a tie is impossible, since `2 ^ (2k+1)` is never a perfect square).
`f = ⌊log2 n⌋` and we round up exactly when `n² ≥ 2^(2f+1)`. -/
def roundLog2 (n : ℕ) : ℕ :=
  let f := natLog2 n
  if n ^ 2 < 2 ^ (2 * f + 1) then f else f + 1

/-- Sturges' rule, `bin_count = 1 + round(log2(total_count))` (line 177). -/
def sturges (n : ℕ) : ℕ := 1 + roundLog2 n

/-- The bin-count hint actually used: the explicit argument if supplied,
otherwise Sturges' rule. -/
def targetBinCount (vc : List (ℚ × ℕ)) (binCount? : Option ℕ) : ℕ :=
  match binCount? with
  | some b => b
  | none => sturges (totalCount vc)

/-- The candidate linear layout computed by lines 179-207. -/
structure LinLayout where
  lower_bound : ℚ
  bin_size : ℚ
  bin_count : ℕ
  bin_boundaries : List ℚ
deriving DecidableEq

/-- The linear bin boundaries of lines 204-207:
`[lower_bound + i * bin_size for i in xrange(bin_count + 1)]`. -/
def linBoundaries (lb s : ℚ) (n : ℕ) : List ℚ :=
  (List.range (n + 1)).map fun i : ℕ => lb + (i : ℚ) * s

/-- Lines 179-207 of `AutoBins.__init__`: the candidate linear layout, from
the extremes `low < high` and the target bin count.  Error results model the
Python exceptions: division by zero for `bin_count == 0` or `bin_size == 0`,
and the two `assert` statements of lines 200-201. -/
def linearLayout (low high : ℚ) (bin_count0 : ℕ) : Except String LinLayout :=
  if bin_count0 = 0 then .error "float division by zero"
  else
    let span := high - low
    match round_to_nice ((low + high) / 2) (some (span / bin_count0)) with
    | none => .error "round_to_nice diverged"
    | some middle =>
      let biggest_side := max (middle - low) (high - middle)
      match round_up_to_nice (biggest_side * 2 / bin_count0) none with
      | none => .error "round_up_to_nice diverged"
      | some bin_size =>
        let lb0 := middle - bin_size * ((bin_count0 : ℚ) / 2)
        let lower_bound := if lb0 < 0 ∧ 0 ≤ low then 0 else lb0
        if bin_size = 0 then .error "float division by zero"
        else
          let fc : ℤ := ⌈(high - lower_bound) / bin_size⌉
          if ¬ lower_bound ≤ low then .error "AssertionError"
          else if ¬ high ≤ lower_bound + bin_size * fc then .error "AssertionError"
          else
            .ok ⟨lower_bound, bin_size, fc.toNat, linBoundaries lower_bound bin_size fc.toNat⟩

/-- The candidate linear layout as a function of the raw input. -/
def candidateLayout (vc : List (ℚ × ℕ)) (binCount? : Option ℕ) :
    Except String LinLayout :=
  linearLayout (listMin (valuesOf vc)) (listMax (valuesOf vc))
    (targetBinCount vc binCount?)

/-- The final (re-derived) bin count of the candidate linear layout; `0` on
the error paths. -/
def candBinCount (vc : List (ℚ × ℕ)) (binCount? : Option ℕ) : ℕ :=
  match candidateLayout vc binCount? with
  | .ok lin => lin.bin_count
  | .error _ => 0

/-- `bin_boundaries[1]` of the candidate linear layout: the upper edge of its
first bin; `0` on the error paths. -/
def candFirstBoundary (vc : List (ℚ × ℕ)) (binCount? : Option ℕ) : ℚ :=
  match candidateLayout vc binCount? with
  | .ok lin => lin.bin_boundaries.getD 1 0
  | .error _ => 0

/-- `number_in_first_bucket` (lines 211-215): the total count of pairs whose
value lies strictly below `bound` (instantiated with `bin_boundaries[1]`). -/
def numberInFirstBucket (vc : List (ℚ × ℕ)) (bound : ℚ) : ℕ :=
  ((vc.filter fun p => p.1 < bound).map Prod.snd).sum

/-- Sequence a list of optional rationals (a Python list comprehension whose
elements may each raise). -/
def optionAll : List (Option ℚ) → Option (List ℚ)
  | [] => some []
  | none :: _ => none
  | some x :: rest => (optionAll rest).map (x :: ·)

/-- Lines 240-243: the logarithmic bin boundaries
`[round_up_to_nice(lower_bound * bucket_exponent ** i) for i in xrange(bin_count + 1)]`. -/
def logBoundaries (lower_bound g : ℚ) (bin_count : ℕ) : Option (List ℚ) :=
  optionAll ((List.range (bin_count + 1)).map fun i =>
    round_up_to_nice (lower_bound * g ^ i) none)

/-- The logarithmic-mode lower bound, `round_down_to_nice(low)` (line 228). -/
def logLowerBound (low : ℚ) : Option ℚ := round_down_to_nice low none

/-- `total_growth = float(upper_bound) / float(lower_bound)` (line 235), as a
function of the data extremes. -/
def totalGrowth (low high : ℚ) : ℚ := high / (logLowerBound low).getD 0

/-- `AutoBins.__init__` from a value/count list (lines 154-243), after input
normalisation.  `binCount?` is the optional `bin_count` argument and `root`
stands for the real number `total_growth ** (1.0 / b)` of line 236 (see the
section comment).  Error results model the Python exceptions (`min` of an
empty set, `math.log(0)`, and the errors of `linearLayout`). -/
def autoBinsCounted (vc : List (ℚ × ℕ)) (binCount? : Option ℕ) (root : ℚ) :
    Except String AutoBins :=
  let values := valuesOf vc
  if values.length = 1 then
    let value := vc.headI.1
    .ok ⟨value, some 0, 1, [value, value], false⟩
  else if values.length = 0 then .error "min() arg is an empty sequence"
  else if binCount? = none ∧ totalCount vc = 0 then .error "math domain error"
  else
    match candidateLayout vc binCount? with
    | .error e => .error e
    | .ok lin =>
      let low := listMin values
      let n1 := numberInFirstBucket vc (lin.bin_boundaries.getD 1 0)
      if 0 < low ∧ totalCount vc / 2 < n1 then
        match logLowerBound low with
        | none => .error "round_down_to_nice diverged"
        | some lb2 =>
          match round_up_to_nice root none with
          | none => .error "round_up_to_nice diverged"
          | some g =>
            match logBoundaries lb2 g lin.bin_count with
            | none => .error "round_up_to_nice diverged"
            | some bounds => .ok ⟨lb2, none, lin.bin_count, bounds, true⟩
      else
        .ok ⟨lin.lower_bound, some lin.bin_size, lin.bin_count, lin.bin_boundaries, false⟩

/-- `Counter(values).iteritems()` (line 156): group equal values and count
occurrences. -/
def groupCounts (vs : List ℚ) : List (ℚ × ℕ) :=
  vs.dedup.map fun v => (v, vs.count v)

/-- The full `AutoBins.__init__` entry point (lines 147-243), with the
both/neither argument validation of lines 149-152. -/
def AutoBinsInit (values : Option (List ℚ)) (values_and_counts : Option (List (ℚ × ℕ)))
    (binCount? : Option ℕ) (root : ℚ) : Except String AutoBins :=
  match values, values_and_counts with
  | none, none => .error "Either values or values an counts should be set"
  | some _, some _ => .error "Only one of values or values_and_counts should be set"
  | some vs, none => autoBinsCounted (groupCounts vs) binCount? root
  | none, some vc => autoBinsCounted vc binCount? root

/-- `is_logarithmic` (line 245). -/
def AutoBins.is_logarithmic (ab : AutoBins) : Bool := ab.logarithmic

/-- `get_bin_count` (line 248). -/
def AutoBins.get_bin_count (ab : AutoBins) : ℕ := ab.bin_count

/-- `get_bin_boundaries` (line 251). -/
def AutoBins.get_bin_boundaries (ab : AutoBins) : List ℚ := ab.bin_boundaries

/-- The `for i in xrange(self.bin_count)` loop of `get_bin_index_for_value`
(lines 258-262), starting at index `i`, with explicit fuel bounding the
remaining iterations (fuel `bin_count - i` is exact; any larger fuel gives
the same result, since the loop stops at `i = bin_count`). -/
def binIndexLoop (boundaries : List ℚ) (value : ℚ) (bin_count : ℕ) :
    ℕ → ℕ → ℕ
  | _, 0 => bin_count - 1
  | i, fuel + 1 =>
    if i < bin_count then
      if value < boundaries.getD (i + 1) 0 then i
      else binIndexLoop boundaries value bin_count (i + 1) fuel
    else bin_count - 1

/-- `get_bin_index_for_value` (lines 258-262). -/
def AutoBins.get_bin_index_for_value (ab : AutoBins) (value : ℚ) : ℕ :=
  binIndexLoop ab.bin_boundaries value ab.bin_count 0 ab.bin_count

/-! ### Verification-side notions -/

/-- A quantum reachable by the shrinking loops: a power of ten divided by some
`2`s and `5`s, i.e. `2 ^ a * 5 ^ b` with integer exponents. -/
def Smooth25 (q : ℚ) : Prop := ∃ a b : ℤ, q = 2 ^ a * 5 ^ b

/-- A rational whose denominator divides some `2 ^ A * 5 ^ B`: the closure of
the rounding functions' outputs (each is an integer multiple of a reachable
quantum) under products and powers. -/
def DenSmooth (x : ℚ) : Prop := ∃ (m : ℤ) (A B : ℕ), x = (m : ℚ) / (2 ^ A * 5 ^ B)

/-! ## Theorems -/

/-! ### The starting quantum: `ratClog10` is the ceiling of `log10` -/

theorem findExp_spec (n : ℕ) :
    ∀ fuel d, 0 < d → n ≤ d * 10 ^ fuel →
      n ≤ d * 10 ^ (findExp n d fuel) ∧ ∀ j, j < findExp n d fuel → d * 10 ^ j < n := by
  intro fuel
  induction fuel with
  | zero =>
    intro d _ h
    simp only [findExp]
    exact ⟨by simpa using h, fun j hj => absurd hj (Nat.not_lt_zero j)⟩
  | succ fuel ih =>
    intro d hd h
    simp only [findExp]
    by_cases hnd : n ≤ d
    · simp only [if_pos hnd]
      exact ⟨by simpa using hnd, fun j hj => absurd hj (Nat.not_lt_zero j)⟩
    · simp only [if_neg hnd]
      have h' : n ≤ 10 * d * 10 ^ fuel := by
        calc n ≤ d * 10 ^ (fuel + 1) := h
        _ = 10 * d * 10 ^ fuel := by ring
      obtain ⟨h1, h2⟩ := ih (10 * d) (by omega) h'
      refine ⟨by calc n ≤ 10 * d * 10 ^ findExp n (10 * d) fuel := h1
        _ = d * 10 ^ (findExp n (10 * d) fuel + 1) := by ring, ?_⟩
      intro j hj
      match j with
      | 0 => simpa using Nat.lt_of_not_le hnd
      | k + 1 =>
        have := h2 k (by omega)
        calc d * 10 ^ (k + 1) = 10 * d * 10 ^ k := by ring
        _ < n := this

theorem findNeg_spec :
    ∀ fuel n d, 0 < n → n ≤ d → d < 10 ^ fuel * n →
      n * 10 ^ (findNeg n d fuel) ≤ d ∧ d < n * 10 ^ (findNeg n d fuel + 1) := by
  intro fuel
  induction fuel with
  | zero =>
    intro n d hn hnd hf
    simp only [pow_zero, one_mul] at hf
    omega
  | succ fuel ih =>
    intro n d hn hnd hf
    simp only [findNeg]
    by_cases h10 : 10 * n ≤ d
    · simp only [if_pos h10]
      have hf' : d < 10 ^ fuel * (10 * n) := by
        calc d < 10 ^ (fuel + 1) * n := hf
        _ = 10 ^ fuel * (10 * n) := by ring
      obtain ⟨h1, h2⟩ := ih (10 * n) d (by omega) h10 hf'
      constructor
      · calc n * 10 ^ (findNeg (10 * n) d fuel + 1)
            = 10 * n * 10 ^ findNeg (10 * n) d fuel := by ring
        _ ≤ d := h1
      · calc d < 10 * n * 10 ^ (findNeg (10 * n) d fuel + 1) := h2
        _ = n * 10 ^ (findNeg (10 * n) d fuel + 1 + 1) := by ring
    · simp only [if_neg h10]
      constructor
      · simpa using hnd
      · simpa [mul_comm] using Nat.lt_of_not_le h10

theorem ratClog10_spec (t : ℚ) (ht : 0 < t) :
    t ≤ (10 : ℚ) ^ ratClog10 t ∧ (10 : ℚ) ^ (ratClog10 t - 1) < t := by
  have hnum : 0 < t.num := Rat.num_pos.mpr ht
  have hden : 0 < t.den := t.pos
  set n := t.num.toNat with hn
  have hncast : (n : ℤ) = t.num := Int.toNat_of_nonneg hnum.le
  have hnq : ((n : ℚ)) = (t.num : ℚ) := by exact_mod_cast hncast
  have hteq : t = (n : ℚ) / (t.den : ℚ) := by
    rw [hnq]; exact (Rat.num_div_den t).symm
  have hdenq : (0 : ℚ) < (t.den : ℚ) := by exact_mod_cast hden
  -- reduce `t ≤ 10 ^ (m : ℤ)` and `10 ^ (m : ℤ) < t` to natural inequalities
  have key_le : ∀ m : ℕ, n ≤ t.den * 10 ^ m → t ≤ (10 : ℚ) ^ (m : ℤ) := by
    intro m hm
    rw [hteq, div_le_iff₀ hdenq, zpow_natCast, mul_comm]
    exact_mod_cast hm
  have key_lt : ∀ m : ℕ, t.den * 10 ^ m < n → (10 : ℚ) ^ (m : ℤ) < t := by
    intro m hm
    rw [hteq, lt_div_iff₀ hdenq, zpow_natCast, mul_comm]
    exact_mod_cast hm
  have key_le' : ∀ m : ℕ, n * 10 ^ m ≤ t.den → t ≤ (10 : ℚ) ^ (-(m : ℤ)) := by
    intro m hm
    rw [hteq, div_le_iff₀ hdenq, zpow_neg, zpow_natCast, inv_mul_eq_div,
      le_div_iff₀ (by positivity : (0:ℚ) < 10 ^ m)]
    exact_mod_cast hm
  have key_lt' : ∀ m : ℕ, t.den < n * 10 ^ m → (10 : ℚ) ^ (-(m : ℤ)) < t := by
    intro m hm
    rw [hteq, lt_div_iff₀ hdenq, zpow_neg, zpow_natCast, inv_mul_eq_div,
      div_lt_iff₀ (by positivity : (0:ℚ) < 10 ^ m)]
    exact_mod_cast hm
  unfold ratClog10
  by_cases hcase : t.den ≤ t.num.toNat
  · simp only [if_pos hcase]
    have hpre : n ≤ t.den * 10 ^ n := by
      have h1 : n < 10 ^ n := Nat.lt_pow_self (by norm_num) n
      calc n ≤ 10 ^ n := h1.le
        _ ≤ t.den * 10 ^ n := Nat.le_mul_of_pos_left _ hden
    obtain ⟨h1, h2⟩ := findExp_spec n n t.den hden hpre
    set r := findExp n t.den n with hr
    constructor
    · exact key_le r h1
    · match hrr : r with
      | 0 =>
        have ht1 : (1 : ℚ) ≤ t := by
          rw [hteq, le_div_iff₀ hdenq, one_mul]
          exact_mod_cast hcase
        calc (10 : ℚ) ^ ((0 : ℤ) - 1) = 1 / 10 := by norm_num
          _ < 1 := by norm_num
          _ ≤ t := ht1
      | k + 1 =>
        have := h2 k (by omega)
        have : (10 : ℚ) ^ (k : ℤ) < t := key_lt k this
        calc (10 : ℚ) ^ ((k + 1 : ℕ) - 1 : ℤ) = (10 : ℚ) ^ (k : ℤ) := by
              norm_num
          _ < t := this
  · simp only [if_neg hcase]
    have hnpos : 0 < n := by
      have : (0 : ℤ) < n := by rw [hncast]; exact hnum
      exact_mod_cast this
    have hnd : n ≤ t.den := by omega
    have hpre : t.den < 10 ^ t.den * n := by
      have h1 : t.den < 10 ^ t.den := Nat.lt_pow_self (by norm_num) t.den
      calc t.den < 10 ^ t.den := h1
        _ ≤ 10 ^ t.den * n := Nat.le_mul_of_pos_right _ hnpos
    obtain ⟨h1, h2⟩ := findNeg_spec t.den n t.den hnpos hnd hpre
    set k := findNeg n t.den t.den with hk
    constructor
    · exact key_le' k h1
    · have : (10 : ℚ) ^ (-((k + 1 : ℕ) : ℤ)) < t := key_lt' (k + 1) h2
      calc (10 : ℚ) ^ (-(k : ℕ) - 1 : ℤ) = (10 : ℚ) ^ (-((k + 1 : ℕ) : ℤ)) := by
            congr 1
            push_cast
            ring
        _ < t := this

/-- `ratClog10` agrees with Mathlib's `Int.clog 10` (i.e. it really is
`math.ceil(math.log10 t)`). -/
theorem ratClog10_eq_clog (t : ℚ) (ht : 0 < t) : ratClog10 t = Int.clog 10 t := by
  obtain ⟨h1, h2⟩ := ratClog10_spec t ht
  have hc1 : Int.clog 10 t ≤ ratClog10 t :=
    (Int.le_zpow_iff_clog_le (by norm_num) ht).mp h1
  have hc2 : ¬ Int.clog 10 t ≤ ratClog10 t - 1 := by
    intro hle
    have := (Int.le_zpow_iff_clog_le (b := 10) (by norm_num) ht).mpr hle
    exact absurd this (not_le.mpr h2)
  omega

theorem niceQuantum_pos (t : ℚ) : 0 < niceQuantum t :=
  zpow_pos (by norm_num) _

theorem le_niceQuantum {t : ℚ} (ht : 0 < t) : t ≤ niceQuantum t :=
  (ratClog10_spec t ht).1

theorem niceQuantum_div_ten_lt {t : ℚ} (ht : 0 < t) : niceQuantum t / 10 < t := by
  have := (ratClog10_spec t ht).2
  calc niceQuantum t / 10 = (10 : ℚ) ^ (ratClog10 t - 1) := by
        rw [niceQuantum, zpow_sub_one₀ (by norm_num : (10:ℚ) ≠ 0)]
        ring
    _ < t := this

theorem log2Fuel_spec :
    ∀ fuel n, 1 ≤ n → n ≤ fuel →
      2 ^ log2Fuel fuel n ≤ n ∧ n < 2 ^ (log2Fuel fuel n + 1) := by
  intro fuel
  induction fuel with
  | zero => intro n h1 h2; omega
  | succ fuel ih =>
    intro n h1 h2
    simp only [log2Fuel]
    by_cases hn : n < 2
    · rw [if_pos hn]
      simp
      omega
    · rw [if_neg hn]
      obtain ⟨ih1, ih2⟩ := ih (n / 2) (by omega) (by omega)
      obtain ⟨X, hX⟩ : ∃ X, 2 ^ log2Fuel fuel (n / 2) = X := ⟨_, rfl⟩
      rw [hX] at ih1
      rw [pow_succ, hX] at ih2
      constructor
      · rw [pow_succ, hX]
        omega
      · rw [pow_succ, pow_succ, hX]
        omega

/-- `natLog2` really is the floor of `log2`. -/
theorem natLog2_eq_log (n : ℕ) (hn : 1 ≤ n) : natLog2 n = Nat.log 2 n := by
  obtain ⟨h1, h2⟩ := log2Fuel_spec n n hn le_rfl
  exact (Nat.log_eq_of_pow_le_of_lt_pow h1 h2).symm

/-! ### The rounding loops: soundness and termination -/

theorem cycleDivisor_pos (i : ℕ) : 0 < cycleDivisor i := by
  unfold cycleDivisor
  split <;> norm_num

theorem cycleDivisor_mul (i : ℕ) : cycleDivisor i * cycleDivisor (i + 1) = 10 := by
  unfold cycleDivisor
  rcases Nat.mod_two_eq_zero_or_one i with h | h <;>
    simp [h, Nat.add_mod] <;> try norm_num

theorem le_upStep (x : ℚ) {q : ℚ} (hq : 0 < q) : x ≤ upStep x q := by
  unfold upStep
  calc x = x / q * q := by field_simp
    _ ≤ (⌈x / q⌉ : ℚ) * q := by
        exact mul_le_mul_of_nonneg_right (Int.le_ceil _) hq.le

theorem upStep_lt (x : ℚ) {q : ℚ} (hq : 0 < q) : upStep x q < x + q := by
  unfold upStep
  have h := Int.ceil_lt_add_one (x / q)
  calc (⌈x / q⌉ : ℚ) * q < (x / q + 1) * q := by
        exact mul_lt_mul_of_pos_right h hq
    _ = x + q := by field_simp

theorem downStep_le (x : ℚ) {q : ℚ} (hq : 0 < q) : downStep x q ≤ x := by
  unfold downStep
  calc (⌊x / q⌋ : ℚ) * q ≤ x / q * q := by
        exact mul_le_mul_of_nonneg_right (Int.floor_le _) hq.le
    _ = x := by field_simp

theorem lt_downStep (x : ℚ) {q : ℚ} (hq : 0 < q) : x - q < downStep x q := by
  unfold downStep
  have h := Int.sub_one_lt_floor (x / q)
  calc x - q = (x / q - 1) * q := by field_simp
    _ < (⌊x / q⌋ : ℚ) * q := by exact mul_lt_mul_of_pos_right h hq

theorem Smooth25.pos {q : ℚ} (h : Smooth25 q) : 0 < q := by
  obtain ⟨a, b, rfl⟩ := h
  positivity

theorem Smooth25.div_cycle {q : ℚ} (h : Smooth25 q) (i : ℕ) :
    Smooth25 (q / cycleDivisor i) := by
  obtain ⟨a, b, rfl⟩ := h
  unfold cycleDivisor
  split
  · exact ⟨a - 1, b, by
      rw [zpow_sub_one₀ (by norm_num : (2:ℚ) ≠ 0)]; ring⟩
  · exact ⟨a, b - 1, by
      rw [zpow_sub_one₀ (by norm_num : (5:ℚ) ≠ 0)]; ring⟩

theorem smooth25_niceQuantum (t : ℚ) : Smooth25 (niceQuantum t) :=
  ⟨ratClog10 t, ratClog10 t, by
    rw [niceQuantum, ← mul_zpow]; norm_num⟩

theorem zpow_eq_div_toNat (c : ℚ) (a : ℤ) :
    c ^ a = c ^ a.toNat / c ^ (-a).toNat := by
  rcases le_or_lt 0 a with h | h
  · lift a to ℕ using h
    rw [Int.toNat_natCast, show (-(a : ℤ)).toNat = 0 from Int.toNat_of_nonpos
      (by omega), pow_zero, div_one, zpow_natCast]
  · obtain ⟨n, rfl⟩ : ∃ n : ℕ, a = -(n : ℤ) := ⟨(-a).toNat, by omega⟩
    rw [show (-(n : ℤ)).toNat = 0 from Int.toNat_of_nonpos (by omega), pow_zero,
      show (-(-(n : ℤ))).toNat = n from by omega, zpow_neg, zpow_natCast, one_div]

/-- Any integer multiple of a reachable quantum has a `2`-`5`-smooth
denominator. -/
theorem denSmooth_int_mul_smooth (c : ℤ) {q : ℚ} (h : Smooth25 q) :
    DenSmooth ((c : ℚ) * q) := by
  obtain ⟨a, b, rfl⟩ := h
  refine ⟨c * 2 ^ a.toNat * 5 ^ b.toNat, (-a).toNat, (-b).toNat, ?_⟩
  rw [zpow_eq_div_toNat 2 a, zpow_eq_div_toNat 5 b]
  push_cast
  rw [div_mul_div_comm, mul_div_assoc', mul_comm]
  congr 1
  ring

theorem denSmooth_upStep (x : ℚ) {q : ℚ} (h : Smooth25 q) :
    DenSmooth (upStep x q) :=
  denSmooth_int_mul_smooth _ h

theorem denSmooth_downStep (x : ℚ) {q : ℚ} (h : Smooth25 q) :
    DenSmooth (downStep x q) :=
  denSmooth_int_mul_smooth _ h

theorem DenSmooth.mul {x y : ℚ} (hx : DenSmooth x) (hy : DenSmooth y) :
    DenSmooth (x * y) := by
  obtain ⟨m, A, B, rfl⟩ := hx
  obtain ⟨m', A', B', rfl⟩ := hy
  refine ⟨m * m', A + A', B + B', ?_⟩
  push_cast
  rw [div_mul_div_comm]
  congr 1
  ring

theorem DenSmooth.pow {x : ℚ} (hx : DenSmooth x) (n : ℕ) : DenSmooth (x ^ n) := by
  induction n with
  | zero => exact ⟨1, 0, 0, by norm_num⟩
  | succ n ih => rw [pow_succ]; exact ih.mul hx

theorem upLoop_sound (x t : ℚ) :
    ∀ fuel q i r, Smooth25 q → upLoop x t q i fuel = some r →
      x ≤ r ∧ r - x ≤ t ∧ ∃ q', Smooth25 q' ∧ r = upStep x q' := by
  intro fuel
  induction fuel with
  | zero => intro q i r _ h; simp [upLoop] at h
  | succ fuel ih =>
    intro q i r hsm h
    simp only [upLoop] at h
    split at h
    · split at h
      · obtain rfl : upStep x q = r := by simpa using h
        exact ⟨by assumption, by assumption, q, hsm, rfl⟩
      · exact ih _ _ _ (hsm.div_cycle i) h
    · simp at h

theorem downLoop_sound (x t : ℚ) :
    ∀ fuel q i r, Smooth25 q → downLoop x t q i fuel = some r →
      r ≤ x ∧ x - r ≤ t ∧ ∃ q', Smooth25 q' ∧ r = downStep x q' := by
  intro fuel
  induction fuel with
  | zero => intro q i r _ h; simp [downLoop] at h
  | succ fuel ih =>
    intro q i r hsm h
    simp only [downLoop] at h
    split at h
    · split at h
      · obtain rfl : downStep x q = r := by simpa using h
        exact ⟨by assumption, by assumption, q, hsm, rfl⟩
      · exact ih _ _ _ (hsm.div_cycle i) h
    · simp at h

theorem upLoop_mono (x t : ℚ) :
    ∀ fuel fuel' q i r, fuel ≤ fuel' → upLoop x t q i fuel = some r →
      upLoop x t q i fuel' = some r := by
  intro fuel
  induction fuel with
  | zero => intro fuel' q i r _ h; simp [upLoop] at h
  | succ fuel ih =>
    intro fuel' q i r hle h
    match fuel' with
    | 0 => omega
    | fuel' + 1 =>
      simp only [upLoop] at h ⊢
      split at h
      · split at h
        · rwa [if_pos (by assumption), if_pos (by assumption)]
        · rw [if_pos (by assumption), if_neg (by assumption)]
          exact ih fuel' _ _ _ (by omega) h
      · simp at h

theorem downLoop_mono (x t : ℚ) :
    ∀ fuel fuel' q i r, fuel ≤ fuel' → downLoop x t q i fuel = some r →
      downLoop x t q i fuel' = some r := by
  intro fuel
  induction fuel with
  | zero => intro fuel' q i r _ h; simp [downLoop] at h
  | succ fuel ih =>
    intro fuel' q i r hle h
    match fuel' with
    | 0 => omega
    | fuel' + 1 =>
      simp only [downLoop] at h ⊢
      split at h
      · split at h
        · rwa [if_pos (by assumption), if_pos (by assumption)]
        · rw [if_pos (by assumption), if_neg (by assumption)]
          exact ih fuel' _ _ _ (by omega) h
      · simp at h

theorem upLoop_total (x t q : ℚ) (hq : 0 < q) (hqt : q / 10 < t)
    (i : ℕ) : ∃ r, upLoop x t q i 3 = some r := by
  have hq1 : 0 < q / cycleDivisor i := div_pos hq (cycleDivisor_pos i)
  have hq2 : 0 < q / cycleDivisor i / cycleDivisor (i + 1) :=
    div_pos hq1 (cycleDivisor_pos (i + 1))
  have hq2eq : q / cycleDivisor i / cycleDivisor (i + 1) = q / 10 := by
    rw [div_div, cycleDivisor_mul]
  simp only [upLoop]
  rw [if_pos (le_upStep x hq)]
  by_cases h0 : upStep x q - x ≤ t
  · rw [if_pos h0]; exact ⟨_, rfl⟩
  · rw [if_neg h0, if_pos (le_upStep x hq1)]
    by_cases h1 : upStep x (q / cycleDivisor i) - x ≤ t
    · rw [if_pos h1]; exact ⟨_, rfl⟩
    · rw [if_neg h1, if_pos (le_upStep x hq2)]
      have : upStep x (q / cycleDivisor i / cycleDivisor (i + 1)) - x ≤ t := by
        have := upStep_lt x hq2
        rw [hq2eq] at this ⊢
        linarith
      rw [if_pos this]
      exact ⟨_, rfl⟩

theorem downLoop_total (x t q : ℚ) (hq : 0 < q) (hqt : q / 10 < t)
    (i : ℕ) : ∃ r, downLoop x t q i 3 = some r := by
  have hq1 : 0 < q / cycleDivisor i := div_pos hq (cycleDivisor_pos i)
  have hq2 : 0 < q / cycleDivisor i / cycleDivisor (i + 1) :=
    div_pos hq1 (cycleDivisor_pos (i + 1))
  have hq2eq : q / cycleDivisor i / cycleDivisor (i + 1) = q / 10 := by
    rw [div_div, cycleDivisor_mul]
  simp only [downLoop]
  rw [if_pos (downStep_le x hq)]
  by_cases h0 : x - downStep x q ≤ t
  · rw [if_pos h0]; exact ⟨_, rfl⟩
  · rw [if_neg h0, if_pos (downStep_le x hq1)]
    by_cases h1 : x - downStep x (q / cycleDivisor i) ≤ t
    · rw [if_pos h1]; exact ⟨_, rfl⟩
    · rw [if_neg h1, if_pos (downStep_le x hq2)]
      have : x - downStep x (q / cycleDivisor i / cycleDivisor (i + 1)) ≤ t := by
        have := lt_downStep x hq2
        rw [hq2eq] at this ⊢
        linarith
      rw [if_pos this]
      exact ⟨_, rfl⟩

/-- Full specification of `round_up_to_nice` with an explicit or defaulted
positive tolerance: it returns a value in `[x, x + t]` whose denominator is
`2`-`5`-smooth. -/
theorem round_up_spec (x : ℚ) (tol : Option ℚ) (t : ℚ)
    (htol : tol.getD |x / 10| = t) (ht : 0 < t) :
    ∃ r, round_up_to_nice x tol = some r ∧ x ≤ r ∧ r ≤ x + t ∧ DenSmooth r := by
  unfold round_up_to_nice
  by_cases hx : x = 0
  · exact ⟨0, by simp [hx], by simp [hx], by simp [hx]; linarith,
      ⟨0, 0, 0, by norm_num⟩⟩
  · rw [if_neg hx, htol, if_neg ht.ne', if_neg (not_lt.mpr ht.le)]
    obtain ⟨r, hr⟩ := upLoop_total x t (niceQuantum t) (niceQuantum_pos t)
      (niceQuantum_div_ten_lt ht) 0
    obtain ⟨h1, h2, q', hq', hrq⟩ := upLoop_sound x t 3 _ 0 r
      (smooth25_niceQuantum t) hr
    exact ⟨r, hr, h1, by linarith, hrq ▸ denSmooth_upStep x hq'⟩

/-- Full specification of `round_down_to_nice` with an explicit or defaulted
positive tolerance. -/
theorem round_down_spec (x : ℚ) (tol : Option ℚ) (t : ℚ)
    (htol : tol.getD |x / 10| = t) (ht : 0 < t) :
    ∃ r, round_down_to_nice x tol = some r ∧ x - t ≤ r ∧ r ≤ x ∧ DenSmooth r := by
  unfold round_down_to_nice
  by_cases hx : x = 0
  · exact ⟨0, by simp [hx], by simp [hx]; linarith, by simp [hx],
      ⟨0, 0, 0, by norm_num⟩⟩
  · rw [if_neg hx, htol, if_neg ht.ne', if_neg (not_lt.mpr ht.le)]
    obtain ⟨r, hr⟩ := downLoop_total x t (niceQuantum t) (niceQuantum_pos t)
      (niceQuantum_div_ten_lt ht) 0
    obtain ⟨h1, h2, q', hq', hrq⟩ := downLoop_sound x t 3 _ 0 r
      (smooth25_niceQuantum t) hr
    exact ⟨r, hr, by linarith, h1, hrq ▸ denSmooth_downStep x hq'⟩

/-- `round_to_nice` with a positive tolerance returns a value within `t`
of its argument. -/
theorem round_to_nice_spec (x t : ℚ) (ht : 0 < t) :
    ∃ m, round_to_nice x (some t) = some m ∧ |m - x| ≤ t := by
  obtain ⟨d, hd, hd1, hd2, _⟩ := round_down_spec x (some t) t rfl ht
  obtain ⟨u, hu, hu1, hu2, _⟩ := round_up_spec x (some t) t rfl ht
  refine ⟨nearest x [d, u], by rw [round_to_nice, hd, hu], ?_⟩
  have hnd : nearest x [d, u] = if |u - x| < |d - x| then u else d := by
    simp [nearest, List.foldl]
  rw [hnd]
  split
  · rw [abs_le]; constructor <;> linarith
  · rw [abs_le]; constructor <;> linarith

/-! ### List minima and maxima -/

theorem foldl_min_le (l : List ℚ) : ∀ a : ℚ, l.foldl min a ≤ a ∧ ∀ x ∈ l, l.foldl min a ≤ x := by
  induction l with
  | nil => intro a; simp
  | cons b l ih =>
    intro a
    obtain ⟨h1, h2⟩ := ih (min a b)
    refine ⟨le_trans h1 (min_le_left a b), ?_⟩
    intro x hx
    rcases List.mem_cons.mp hx with rfl | hx
    · exact le_trans h1 (min_le_right a x)
    · exact h2 x hx

theorem le_foldl_max (l : List ℚ) : ∀ a : ℚ, a ≤ l.foldl max a ∧ ∀ x ∈ l, x ≤ l.foldl max a := by
  induction l with
  | nil => intro a; simp
  | cons b l ih =>
    intro a
    obtain ⟨h1, h2⟩ := ih (max a b)
    refine ⟨le_trans (le_max_left a b) h1, ?_⟩
    intro x hx
    rcases List.mem_cons.mp hx with rfl | hx
    · exact le_trans (le_max_right a x) h1
    · exact h2 x hx

theorem listMin_le {l : List ℚ} {x : ℚ} (hx : x ∈ l) : listMin l ≤ x := by
  match l with
  | [] => simp at hx
  | v :: rest =>
    rcases List.mem_cons.mp hx with rfl | hx
    · exact (foldl_min_le rest x).1
    · exact (foldl_min_le rest v).2 x hx

theorem le_listMax {l : List ℚ} {x : ℚ} (hx : x ∈ l) : x ≤ listMax l := by
  match l with
  | [] => simp at hx
  | v :: rest =>
    rcases List.mem_cons.mp hx with rfl | hx
    · exact (le_foldl_max rest x).1
    · exact (le_foldl_max rest v).2 x hx

theorem listMin_lt_listMax {l : List ℚ} (hnd : l.Nodup) (hl : 2 ≤ l.length) :
    listMin l < listMax l := by
  match l with
  | [] => simp at hl
  | [a] => simp at hl
  | a :: b :: rest =>
    have hab : a ≠ b := by
      intro h
      exact (List.nodup_cons.mp hnd).1 (h ▸ List.mem_cons_self b rest)
    have h1 : listMin (a :: b :: rest) ≤ a := listMin_le (List.mem_cons_self a _)
    have h2 : listMin (a :: b :: rest) ≤ b :=
      listMin_le (List.mem_cons_of_mem a (List.mem_cons_self b rest))
    have h3 : a ≤ listMax (a :: b :: rest) := le_listMax (List.mem_cons_self a _)
    have h4 : b ≤ listMax (a :: b :: rest) :=
      le_listMax (List.mem_cons_of_mem a (List.mem_cons_self b rest))
    by_contra h
    push_neg at h
    exact hab (le_antisymm (by linarith) (by linarith))

/-! ### The candidate linear layout -/

theorem getD_range_map (f : ℕ → ℚ) {n k : ℕ} (hk : k < n) :
    ((List.range n).map f).getD k 0 = f k := by
  rw [List.getD_eq_getElem?_getD, List.getElem?_map, List.getElem?_range hk]
  rfl

theorem linearLayout_spec (low high : ℚ) (bc0 : ℕ) (hlh : low < high) (hbc : 0 < bc0) :
    ∃ lin, linearLayout low high bc0 = .ok lin ∧
      lin.lower_bound ≤ low ∧ 0 < lin.bin_size ∧ 1 ≤ lin.bin_count ∧
      high ≤ lin.lower_bound + lin.bin_size * lin.bin_count ∧
      lin.bin_boundaries = linBoundaries lin.lower_bound lin.bin_size lin.bin_count ∧
      (lin.bin_count : ℤ) = ⌈(high - lin.lower_bound) / lin.bin_size⌉ := by
  have hbcq : (0 : ℚ) < (bc0 : ℚ) := by exact_mod_cast hbc
  have hspan : (0 : ℚ) < (high - low) / (bc0 : ℚ) := div_pos (by linarith) hbcq
  obtain ⟨middle, hmid, -⟩ := round_to_nice_spec ((low + high) / 2) _ hspan
  set B := max (middle - low) (high - middle) with hB
  have hbig : (high - low) / 2 ≤ B := by
    rcases le_total middle ((low + high) / 2) with h | h
    · calc (high - low) / 2 ≤ high - middle := by linarith
        _ ≤ B := le_max_right _ _
    · calc (high - low) / 2 ≤ middle - low := by linarith
        _ ≤ B := le_max_left _ _
  have hBpos : 0 < B := lt_of_lt_of_le (by linarith) hbig
  have hargpos : 0 < B * 2 / (bc0 : ℚ) := by positivity
  obtain ⟨bin_size, hbs, hbs1, -, -⟩ := round_up_spec (B * 2 / (bc0 : ℚ)) none _ rfl
    (abs_pos.mpr (ne_of_gt (by positivity)))
  have hsize : 0 < bin_size := lt_of_lt_of_le hargpos hbs1
  have hhalf : B ≤ bin_size * (bc0 : ℚ) / 2 := by
    have : B * 2 / (bc0 : ℚ) ≤ bin_size := hbs1
    calc B = B * 2 / (bc0 : ℚ) * (bc0 : ℚ) / 2 := by field_simp
      _ ≤ bin_size * (bc0 : ℚ) / 2 := by
          apply div_le_div_of_nonneg_right _ (by norm_num)
          exact mul_le_mul_of_nonneg_right this hbcq.le
  set lb0 := middle - bin_size * ((bc0 : ℚ) / 2) with hlb0
  set lower_bound := if lb0 < 0 ∧ 0 ≤ low then 0 else lb0 with hlbdef
  have hlb : lower_bound ≤ low := by
    rw [hlbdef]
    split
    · exact (by assumption : lb0 < 0 ∧ 0 ≤ low).2
    · have : middle - low ≤ B := le_max_left _ _
      have : lb0 ≤ low := by
        rw [hlb0]
        have : middle - low ≤ bin_size * ((bc0 : ℚ) / 2) := by
          calc middle - low ≤ B := le_max_left _ _
            _ ≤ bin_size * (bc0 : ℚ) / 2 := hhalf
            _ = bin_size * ((bc0 : ℚ) / 2) := by ring
        linarith
      exact this
  set fc : ℤ := ⌈(high - lower_bound) / bin_size⌉ with hfc
  have hfc1 : 1 ≤ fc := by
    rw [hfc]
    have : (0 : ℚ) < (high - lower_bound) / bin_size :=
      div_pos (by linarith) hsize
    exact Int.ceil_pos.mpr this
  have hassert2 : high ≤ lower_bound + bin_size * (fc : ℚ) := by
    have h1 : (high - lower_bound) / bin_size ≤ (fc : ℚ) := Int.le_ceil _
    have h2 : high - lower_bound ≤ bin_size * (fc : ℚ) := by
      rw [div_le_iff₀ hsize] at h1
      linarith [h1]
    linarith
  have htoNat : ((fc.toNat : ℤ)) = fc := Int.toNat_of_nonneg (by linarith [hfc1])
  have htoNatQ : ((fc.toNat : ℕ) : ℚ) = (fc : ℚ) := by exact_mod_cast htoNat
  have hfcNat : 1 ≤ fc.toNat := by
    have h := hfc1
    rw [← htoNat] at h
    exact_mod_cast h
  refine ⟨⟨lower_bound, bin_size, fc.toNat, linBoundaries lower_bound bin_size fc.toNat⟩,
    ?_, ?_⟩
  · simp only [linearLayout, if_neg hbc.ne', hmid, hbs]
    rw [← hlb0, ← hlbdef, ← hfc]
    rw [if_neg hsize.ne', if_neg (not_not_intro hlb), if_neg (not_not_intro hassert2)]
  · refine ⟨hlb, hsize, hfcNat, ?_, rfl, htoNat.trans hfc⟩
    simpa [htoNatQ] using hassert2

/-! ### The bin-index loop -/

theorem binIndexLoop_first_hit (bds : List ℚ) (v : ℚ) (bc : ℕ) :
    ∀ fuel i j, bc ≤ i + fuel → i ≤ j → j < bc → v < bds.getD (j + 1) 0 →
      (∀ k, i ≤ k → k < j → ¬ v < bds.getD (k + 1) 0) →
      binIndexLoop bds v bc i fuel = j := by
  intro fuel
  induction fuel with
  | zero =>
    intro i j hfuel hij hjbc _ _
    omega
  | succ fuel ih =>
    intro i j hfuel hij hjbc hv hmin
    simp only [binIndexLoop]
    rw [if_pos (by omega : i < bc)]
    rcases eq_or_lt_of_le hij with rfl | hlt
    · rw [if_pos hv]
    · rw [if_neg (hmin i le_rfl hlt)]
      exact ih (i + 1) j (by omega) (by omega) hjbc hv
        (fun k hk1 hk2 => hmin k (by omega) hk2)

theorem binIndexLoop_all_miss (bds : List ℚ) (v : ℚ) (bc : ℕ) :
    ∀ fuel i, (∀ k, i ≤ k → k < bc → ¬ v < bds.getD (k + 1) 0) →
      binIndexLoop bds v bc i fuel = bc - 1 := by
  intro fuel
  induction fuel with
  | zero => intro i _; rfl
  | succ fuel ih =>
    intro i hmiss
    simp only [binIndexLoop]
    split
    · rw [if_neg (hmiss i le_rfl (by assumption))]
      exact ih (i + 1) (fun k hk1 hk2 => hmiss k (by omega) hk2)
    · rfl

theorem binIndexLoop_lt (bds : List ℚ) (v : ℚ) (bc : ℕ) (hbc : 0 < bc) :
    ∀ fuel i, binIndexLoop bds v bc i fuel < bc := by
  intro fuel
  induction fuel with
  | zero => intro i; simp only [binIndexLoop]; omega
  | succ fuel ih =>
    intro i
    simp only [binIndexLoop]
    split
    · split
      · assumption
      · exact ih (i + 1)
    · omega

theorem getD_lt_getD_of_chain {bds : List ℚ} (hsort : bds.Chain' (· < ·))
    {a b : ℕ} (hab : a < b) (hb : b < bds.length) :
    bds.getD a 0 < bds.getD b 0 := by
  have hpw : bds.Pairwise (· < ·) := List.chain'_iff_pairwise.mp hsort
  have ha : a < bds.length := lt_trans hab hb
  rw [List.getD_eq_getElem?_getD, List.getD_eq_getElem?_getD,
    List.getElem?_eq_getElem ha, List.getElem?_eq_getElem hb]
  exact List.pairwise_iff_getElem.mp hpw a b ha hb hab

theorem binIndexLoop_prev (bds : List ℚ) (v : ℚ) (bc : ℕ)
    (hlen : bds.length = bc + 1) (hsort : bds.Chain' (· < ·)) :
    ∀ fuel i, bc ≤ i + fuel → i ≤ bc → bds.getD i 0 ≤ v →
      bds.getD (binIndexLoop bds v bc i fuel) 0 ≤ v := by
  have hstop : ∀ i, i = bc → bds.getD i 0 ≤ v → bds.getD (bc - 1) 0 ≤ v := by
    intro i hibc hmem
    rw [hibc] at hmem
    rcases Nat.eq_zero_or_pos bc with h0 | hpos
    · subst h0; simpa using hmem
    · have hlt : bds.getD (bc - 1) 0 < bds.getD bc 0 :=
        getD_lt_getD_of_chain hsort (by omega) (by omega)
      linarith
  intro fuel
  induction fuel with
  | zero =>
    intro i hfuel hle hmem
    simp only [binIndexLoop]
    exact hstop i (by omega) hmem
  | succ fuel ih =>
    intro i hfuel hle hmem
    simp only [binIndexLoop]
    split
    · split
      · exact hmem
      · exact ih (i + 1) (by omega) (by omega)
          (by linarith [not_lt.mp (by assumption : ¬ v < bds.getD (i + 1) 0)])
    · exact hstop i (by omega) hmem

/-! ### Sequencing the logarithmic boundary comprehension -/

theorem optionAll_some_of_forall :
    ∀ os : List (Option ℚ), (∀ o ∈ os, o.isSome) → ∃ l, optionAll os = some l := by
  intro os
  induction os with
  | nil => exact fun _ => ⟨[], rfl⟩
  | cons o os ih =>
    intro h
    match o, h o (List.mem_cons_self o os) with
    | some x, _ =>
      obtain ⟨l, hl⟩ := ih (fun o' ho' => h o' (List.mem_cons_of_mem _ ho'))
      exact ⟨x :: l, by simp [optionAll, hl]⟩

theorem optionAll_map_some :
    ∀ (os : List (Option ℚ)) (l : List ℚ), optionAll os = some l → os = l.map some := by
  intro os
  induction os with
  | nil =>
    intro l h
    simp only [optionAll, Option.some_inj] at h
    simp [← h]
  | cons o os ih =>
    intro l h
    match o with
    | none => simp [optionAll] at h
    | some x =>
      simp only [optionAll, Option.map_eq_some'] at h
      obtain ⟨l', hl', rfl⟩ := h
      simp [ih l' hl']

theorem logBoundaries_spec (lb g : ℚ) (n : ℕ)
    (h : ∀ i, i < n + 1 → ∃ b, round_up_to_nice (lb * g ^ i) none = some b) :
    ∃ l, logBoundaries lb g n = some l ∧ l.length = n + 1 ∧
      ∀ i, i < n + 1 → round_up_to_nice (lb * g ^ i) none = some (l.getD i 0) := by
  have hall : ∀ o ∈ (List.range (n + 1)).map
      (fun i => round_up_to_nice (lb * g ^ i) none), o.isSome := by
    intro o ho
    obtain ⟨i, hi, rfl⟩ := List.mem_map.mp ho
    obtain ⟨b, hb⟩ := h i (List.mem_range.mp hi)
    simp [hb]
  obtain ⟨l, hl⟩ := optionAll_some_of_forall _ hall
  have hmap := optionAll_map_some _ _ hl
  have hlen : l.length = n + 1 := by
    have := congrArg List.length hmap
    simpa using this.symm
  refine ⟨l, hl, hlen, ?_⟩
  intro i hi
  have h1 : ((List.range (n + 1)).map
      (fun i => round_up_to_nice (lb * g ^ i) none))[i]? =
      some (round_up_to_nice (lb * g ^ i) none) := by
    rw [List.getElem?_map, List.getElem?_range hi]
    rfl
  have h2 : (l.map some)[i]? = some (some (l.getD i 0)) := by
    rw [List.getElem?_map, List.getElem?_eq_getElem (by omega : i < l.length)]
    rw [List.getD_eq_getElem?_getD, List.getElem?_eq_getElem (by omega : i < l.length)]
    rfl
  rw [hmap] at h1
  rw [h2] at h1
  exact (Option.some_inj.mp h1).symm

/-! ### The logarithmic growth factor is at least `11/10` -/

theorem ratClog10_le {t : ℚ} (ht : 0 < t) {e : ℤ} (he : t ≤ 10 ^ e) :
    ratClog10 t ≤ e := by
  by_contra h
  push_neg at h
  have h1 : (10 : ℚ) ^ e ≤ 10 ^ (ratClog10 t - 1) :=
    zpow_le_zpow_right₀ (by norm_num) (by omega)
  have h2 := (ratClog10_spec t ht).2
  linarith

theorem lt_ratClog10 {t : ℚ} (ht : 0 < t) {e : ℤ} (he : (10 : ℚ) ^ e < t) :
    e < ratClog10 t := by
  by_contra h
  push_neg at h
  have h1 : (10 : ℚ) ^ (ratClog10 t) ≤ 10 ^ e :=
    zpow_le_zpow_right₀ (by norm_num) h
  have h2 := (ratClog10_spec t ht).1
  linarith

/-- Structure of a successful `round_up_to_nice`: the result is an exact
ceiling-multiple of a reachable quantum. -/
theorem round_up_form (x : ℚ) (tol : Option ℚ) (r : ℚ) (hx : x ≠ 0)
    (ht : 0 < tol.getD |x / 10|) (hr : round_up_to_nice x tol = some r) :
    ∃ q', Smooth25 q' ∧ r = upStep x q' := by
  unfold round_up_to_nice at hr
  rw [if_neg hx] at hr
  simp only [if_neg ht.ne', if_neg (not_lt.mpr ht.le)] at hr
  obtain ⟨-, -, q', hq', hrq⟩ := upLoop_sound x _ 3 _ 0 r (smooth25_niceQuantum _) hr
  exact ⟨q', hq', hrq⟩

/-- Structure of a successful `round_down_to_nice`. -/
theorem round_down_form (x : ℚ) (tol : Option ℚ) (r : ℚ) (hx : x ≠ 0)
    (ht : 0 < tol.getD |x / 10|) (hr : round_down_to_nice x tol = some r) :
    ∃ q', Smooth25 q' ∧ r = downStep x q' := by
  unfold round_down_to_nice at hr
  rw [if_neg hx] at hr
  simp only [if_neg ht.ne', if_neg (not_lt.mpr ht.le)] at hr
  obtain ⟨-, -, q', hq', hrq⟩ := downLoop_sound x _ 3 _ 0 r (smooth25_niceQuantum _) hr
  exact ⟨q', hq', hrq⟩

/-- For `1 < root < 11/10` the loop of `round_up_to_nice(root)` rejects the
candidates `2` and `3/2` and accepts `11/10` at the quantum `1/10`. -/
theorem bucket_exponent_eleven {root : ℚ} (h1 : 1 < root) (h2 : root < 11 / 10) :
    round_up_to_nice root none = some (11 / 10) := by
  have hr0 : root ≠ 0 := by linarith
  have habs : |root / 10| = root / 10 := abs_of_pos (by linarith)
  have htpos : (0 : ℚ) < root / 10 := by linarith
  have hclog : ratClog10 (root / 10) = 0 := by
    have hle : ratClog10 (root / 10) ≤ 0 :=
      ratClog10_le htpos (by rw [zpow_zero]; linarith)
    have hge : (-1 : ℤ) < ratClog10 (root / 10) :=
      lt_ratClog10 htpos (by
        rw [show ((10 : ℚ)) ^ (-1 : ℤ) = 1 / 10 by norm_num]
        linarith)
    omega
  have hq : niceQuantum (root / 10) = 1 := by rw [niceQuantum, hclog, zpow_zero]
  have hs0 : upStep root 1 = 2 := by
    unfold upStep
    rw [div_one, show ⌈root⌉ = 2 from Int.ceil_eq_iff.mpr
      (by constructor <;> push_cast <;> linarith)]
    norm_num
  have hs1 : upStep root (1 / cycleDivisor 0) = 3 / 2 := by
    unfold upStep
    rw [show (1 : ℚ) / cycleDivisor 0 = 1 / 2 by norm_num [cycleDivisor]]
    rw [show root / (1 / 2) = 2 * root by ring]
    rw [show ⌈2 * root⌉ = 3 from Int.ceil_eq_iff.mpr
      (by constructor <;> push_cast <;> linarith)]
    norm_num
  have hs2 : upStep root (1 / cycleDivisor 0 / cycleDivisor 1) = 11 / 10 := by
    unfold upStep
    rw [show (1 : ℚ) / cycleDivisor 0 / cycleDivisor 1 = 1 / 10 by
      norm_num [cycleDivisor]]
    rw [show root / (1 / 10) = 10 * root by ring]
    rw [show ⌈10 * root⌉ = 11 from Int.ceil_eq_iff.mpr
      (by constructor <;> push_cast <;> linarith)]
    norm_num
  unfold round_up_to_nice
  rw [if_neg hr0]
  simp only [Option.getD_none]
  rw [habs, if_neg htpos.ne', if_neg (not_lt.mpr htpos.le), hq]
  simp only [upLoop, hs0, hs1, hs2]
  rw [if_pos (show root ≤ 2 by linarith),
    if_neg (not_le.mpr (show root / 10 < 2 - root by linarith)),
    if_pos (show root ≤ 3 / 2 by linarith),
    if_neg (not_le.mpr (show root / 10 < 3 / 2 - root by linarith)),
    if_pos (show root ≤ 11 / 10 by linarith),
    if_pos (show 11 / 10 - root ≤ root / 10 by linarith)]

/-- The niced growth factor is at least `11/10` whenever the true root
exceeds `1`. -/
theorem bucket_exponent_ge {root g : ℚ} (h1 : 1 < root)
    (hg : round_up_to_nice root none = some g) : 11 / 10 ≤ g := by
  rcases lt_or_le root (11 / 10) with hlt | hge
  · rw [bucket_exponent_eleven h1 hlt] at hg
    rw [← Option.some_inj.mp hg]
  · obtain ⟨r, hr, hxr, -, -⟩ := round_up_spec root none _ rfl
      (abs_pos.mpr (ne_of_gt (by positivity : (0:ℚ) < root / 10)))
    rw [hr] at hg
    obtain rfl := Option.some_inj.mp hg
    linarith

/-! ### `round_up_to_nice x` never lands exactly on `11/10 * x` -/

theorem upStep_ne_eleven_tenths {x q : ℚ} (hx : 0 < x) (hds : DenSmooth x)
    (hsm : Smooth25 q) : upStep x q ≠ 11 / 10 * x := by
  intro heq
  obtain ⟨a, b, rfl⟩ := hsm
  have hqpos : (0 : ℚ) < 2 ^ a * 5 ^ b := by positivity
  set c := ⌈x / (2 ^ a * 5 ^ b)⌉ with hc
  have hcu : (c : ℚ) < x / (2 ^ a * 5 ^ b) + 1 := Int.ceil_lt_add_one _
  have hcpos : 0 < c := Int.ceil_pos.mpr (div_pos hx hqpos)
  have heq' : (c : ℚ) * (2 ^ a * 5 ^ b) = 11 / 10 * x := heq
  have hdiv : x / (2 ^ a * 5 ^ b) = 10 * (c : ℚ) / 11 := by
    rw [eq_div_iff (by norm_num : (11:ℚ) ≠ 0), div_mul_eq_mul_div,
      div_eq_iff hqpos.ne']
    linarith [heq']
  have hc11 : c < 11 := by
    rw [hdiv] at hcu
    have : (11 : ℚ) * c < 10 * c + 11 := by linarith
    have : (c : ℚ) < 11 := by linarith
    exact_mod_cast this
  obtain ⟨m, A, B, hxm⟩ := hds
  -- clear all denominators: an integer identity forcing `11 ∣ c`
  have h2' : (2 : ℚ) ^ a * 2 ^ ((-a).toNat : ℕ) = 2 ^ (a.toNat : ℕ) := by
    rw [← zpow_natCast 2 (-a).toNat, ← zpow_add₀ (by norm_num : (2:ℚ) ≠ 0),
      show a + ((-a).toNat : ℤ) = (a.toNat : ℤ) from by omega, zpow_natCast]
  have h5' : (5 : ℚ) ^ b * 5 ^ ((-b).toNat : ℕ) = 5 ^ (b.toNat : ℕ) := by
    rw [← zpow_natCast 5 (-b).toNat, ← zpow_add₀ (by norm_num : (5:ℚ) ≠ 0),
      show b + ((-b).toNat : ℤ) = (b.toNat : ℤ) from by omega, zpow_natCast]
  have hkey : ((10 * c * 2 ^ a.toNat * 5 ^ b.toNat * 2 ^ A * 5 ^ B : ℤ) : ℚ)
      = ((11 * m * 2 ^ ((-a).toNat) * 5 ^ ((-b).toNat) : ℤ) : ℚ) := by
    push_cast
    have hden : ((2 : ℚ) ^ A * 5 ^ B) ≠ 0 := by positivity
    have e1 : (11 : ℚ) * x = 10 * c * (2 ^ a * 5 ^ b) := by linarith [heq']
    have e2 : (11 : ℚ) * m = 10 * c * (2 ^ a * 5 ^ b) * (2 ^ A * 5 ^ B) := by
      have : (11 : ℚ) * (m / (2 ^ A * 5 ^ B)) = 10 * c * (2 ^ a * 5 ^ b) := by
        rw [← hxm]; exact e1
      field_simp at this
      linarith [this]
    calc (10 : ℚ) * c * 2 ^ a.toNat * 5 ^ b.toNat * 2 ^ A * 5 ^ B
        = 10 * c * (2 ^ a * 2 ^ ((-a).toNat : ℕ)) * (5 ^ b * 5 ^ ((-b).toNat : ℕ))
            * 2 ^ A * 5 ^ B := by rw [h2', h5']
      _ = (10 * c * (2 ^ a * 5 ^ b) * (2 ^ A * 5 ^ B))
            * (2 ^ ((-a).toNat : ℕ) * 5 ^ ((-b).toNat : ℕ)) := by ring
      _ = (11 : ℚ) * m * 2 ^ ((-a).toNat : ℕ) * 5 ^ ((-b).toNat : ℕ) := by
            rw [← e2]; ring
  have hkeyZ : 10 * c * 2 ^ a.toNat * 5 ^ b.toNat * 2 ^ A * 5 ^ B
      = 11 * m * 2 ^ ((-a).toNat) * 5 ^ ((-b).toNat) := by exact_mod_cast hkey
  have h11 : Prime (11 : ℤ) := by norm_num
  have hdvd : (11 : ℤ) ∣ 10 * c * 2 ^ a.toNat * 5 ^ b.toNat * 2 ^ A * 5 ^ B := by
    rw [hkeyZ]
    exact Dvd.dvd.mul_right (Dvd.dvd.mul_right (dvd_mul_right 11 m) _) _
  have hdc : (11 : ℤ) ∣ c := by
    rcases h11.dvd_mul.mp hdvd with h | h
    · rcases h11.dvd_mul.mp h with h | h
      · rcases h11.dvd_mul.mp h with h | h
        · rcases h11.dvd_mul.mp h with h | h
          · rcases h11.dvd_mul.mp h with h | h
            · norm_num at h
            · exact h
          · exact absurd (h11.dvd_of_dvd_pow h) (by norm_num)
        · exact absurd (h11.dvd_of_dvd_pow h) (by norm_num)
      · exact absurd (h11.dvd_of_dvd_pow h) (by norm_num)
    · exact absurd (h11.dvd_of_dvd_pow h) (by norm_num)
  have : (11 : ℤ) ≤ c := Int.le_of_dvd hcpos hdc
  omega

/-- For positive `x` with `2`-`5`-smooth denominator, `round_up_to_nice x`
(default tolerance) stays strictly below `11/10 * x`. -/
theorem round_up_lt_of_denSmooth {x r : ℚ} (hx : 0 < x) (hds : DenSmooth x)
    (hr : round_up_to_nice x none = some r) : x ≤ r ∧ r < 11 / 10 * x := by
  have habs : (0 : ℚ) < |x / 10| := abs_pos.mpr (by positivity)
  obtain ⟨r', hr', h1, h2, -⟩ := round_up_spec x none _ rfl habs
  rw [hr] at hr'
  obtain rfl := Option.some_inj.mp hr'
  obtain ⟨q', hq', hform⟩ := round_up_form x none r hx.ne' habs hr
  have hne : r ≠ 11 / 10 * x := hform ▸ upStep_ne_eleven_tenths hx hds hq'
  simp only [Option.getD_none] at h2
  rw [abs_of_pos (by positivity : (0:ℚ) < x / 10)] at h2
  exact ⟨h1, lt_of_le_of_ne (by linarith) hne⟩

/-! ### Assembling the constructor: the master lemma -/

theorem linBoundaries_length (lb s : ℚ) (n : ℕ) :
    (linBoundaries lb s n).length = n + 1 := by
  simp [linBoundaries]

theorem linBoundaries_getD (lb s : ℚ) {n k : ℕ} (hk : k < n + 1) :
    (linBoundaries lb s n).getD k 0 = lb + (k : ℚ) * s :=
  getD_range_map _ hk

theorem linBoundaries_chain (lb : ℚ) {s : ℚ} (hs : 0 < s) (n : ℕ) :
    (linBoundaries lb s n).Chain' (· < ·) := by
  rw [linBoundaries, List.chain'_map, List.chain'_range_succ]
  intro m _
  have : ((m : ℚ) + 1) * s = (m : ℚ) * s + s := by ring
  push_cast
  linarith

theorem chain'_of_getD {l : List ℚ}
    (h : ∀ i, i + 1 < l.length → l.getD i 0 < l.getD (i + 1) 0) :
    l.Chain' (· < ·) := by
  rw [List.chain'_iff_get]
  intro i hi
  have h1 : i < l.length := by omega
  have h2 : i + 1 < l.length := by omega
  have e1 : l.get ⟨i, h1⟩ = l.getD i 0 := by
    rw [List.getD_eq_getElem?_getD, List.getElem?_eq_getElem h1]
    rfl
  have e2 : l.get ⟨i + 1, h2⟩ = l.getD (i + 1) 0 := by
    rw [List.getD_eq_getElem?_getD, List.getElem?_eq_getElem h2]
    rfl
  rw [e1, e2]
  exact h i h2

/-- The master lemma: under the usage hypotheses (at least two distinct
values, a positive target bin count, a positive total count when Sturges'
rule is used) and the root-parameter constraints, `AutoBins.__init__`
succeeds, and the resulting layout satisfies all structural facts the claims
need. -/
theorem autoBins_master (vc : List (ℚ × ℕ)) (binCount? : Option ℕ) (root : ℚ)
    (hd : 2 ≤ (valuesOf vc).length)
    (ht : binCount? = none → 0 < totalCount vc)
    (hb : 0 < targetBinCount vc binCount?)
    (hroot : 1 < root)
    (hpow : totalGrowth (listMin (valuesOf vc)) (listMax (valuesOf vc)) ≤
      root ^ candBinCount vc binCount?) :
    ∃ ab, autoBinsCounted vc binCount? root = .ok ab ∧
      ab.bin_count = candBinCount vc binCount? ∧
      (ab.logarithmic = true ↔ (0 < listMin (valuesOf vc) ∧
        totalCount vc / 2 < numberInFirstBucket vc (candFirstBoundary vc binCount?))) ∧
      ab.lower_bound ≤ listMin (valuesOf vc) ∧
      1 ≤ ab.bin_count ∧
      ab.bin_boundaries.length = ab.bin_count + 1 ∧
      ab.bin_boundaries.Chain' (· < ·) ∧
      listMax (valuesOf vc) ≤ ab.bin_boundaries.getD ab.bin_count 0 ∧
      ab.lower_bound < ab.bin_boundaries.getD 1 0 ∧
      (ab.logarithmic = false →
        ab.bin_boundaries.getD 0 0 = ab.lower_bound ∧
        (ab.bin_count : ℤ) =
          ⌈(listMax (valuesOf vc) - ab.lower_bound) / ab.bin_size.getD 0⌉) ∧
      (ab.logarithmic = true →
        ∃ lb2 b0, round_down_to_nice (listMin (valuesOf vc)) none = some lb2 ∧
          ab.lower_bound = lb2 ∧
          round_up_to_nice lb2 none = some b0 ∧ ab.bin_boundaries.getD 0 0 = b0) := by
  have hnodup : (valuesOf vc).Nodup := (vc.map Prod.fst).nodup_dedup
  have hlh : listMin (valuesOf vc) < listMax (valuesOf vc) :=
    listMin_lt_listMax hnodup hd
  obtain ⟨lin, hlin, hl_lb, hl_size, hl_cnt, hl_last, hl_bds, hl_ceil⟩ :=
    linearLayout_spec (listMin (valuesOf vc)) (listMax (valuesOf vc))
      (targetBinCount vc binCount?) hlh hb
  have hcand : candidateLayout vc binCount? = .ok lin := hlin
  have hcbc : candBinCount vc binCount? = lin.bin_count := by
    simp [candBinCount, hcand]
  have hcfb : candFirstBoundary vc binCount? = lin.bin_boundaries.getD 1 0 := by
    simp [candFirstBoundary, hcand]
  simp only [autoBinsCounted, hcand]
  rw [if_neg (by omega : ¬ (valuesOf vc).length = 1),
    if_neg (by omega : ¬ (valuesOf vc).length = 0),
    if_neg (by rintro ⟨h1, h2⟩; have := ht h1; omega)]
  by_cases hlog : 0 < listMin (valuesOf vc) ∧
      totalCount vc / 2 < numberInFirstBucket vc (lin.bin_boundaries.getD 1 0)
  case neg =>
    rw [if_neg hlog]
    refine ⟨_, rfl, hcbc.symm, ?_, hl_lb, hl_cnt, ?_, ?_, ?_, ?_, ?_, ?_⟩
    · constructor
      · intro h; simp at h
      · intro h; exact (hlog (by rwa [hcfb] at h)).elim
    · simp only [hl_bds]
      exact linBoundaries_length _ _ _
    · simp only [hl_bds]
      exact linBoundaries_chain _ hl_size _
    · simp only [hl_bds, linBoundaries_getD _ _ (Nat.lt_succ_self lin.bin_count)]
      linarith [hl_last]
    · simp only [hl_bds, linBoundaries_getD _ _ (by omega : 1 < lin.bin_count + 1)]
      push_cast
      linarith [hl_size]
    · intro _
      constructor
      · simp only [hl_bds, linBoundaries_getD _ _ (by omega : 0 < lin.bin_count + 1)]
        push_cast
        ring
      · simpa using hl_ceil
    · intro h; simp at h
  case pos =>
    rw [if_pos hlog]
    obtain ⟨hlowpos, hhalf⟩ := hlog
    obtain ⟨lb2, hlb2, hlb2a, hlb2b, hlb2ds⟩ := round_down_spec
      (listMin (valuesOf vc)) none _ rfl (abs_pos.mpr (by positivity))
    simp only [Option.getD_none] at hlb2a
    rw [abs_of_pos (by positivity : (0:ℚ) < listMin (valuesOf vc) / 10)] at hlb2a
    have hlb2pos : 0 < lb2 := by linarith
    have hrootpos : (0 : ℚ) < root := by linarith
    obtain ⟨g, hgup, hg1, hg2, hgds⟩ := round_up_spec root none _ rfl
      (abs_pos.mpr (ne_of_gt (by positivity)))
    have hge : 11 / 10 ≤ g := bucket_exponent_ge hroot hgup
    have hgpos : 0 < g := by linarith
    have hxpos : ∀ i : ℕ, 0 < lb2 * g ^ i := fun i => by positivity
    have hxds : ∀ i : ℕ, DenSmooth (lb2 * g ^ i) := fun i => hlb2ds.mul (hgds.pow i)
    have hbexists : ∀ i, i < lin.bin_count + 1 →
        ∃ b, round_up_to_nice (lb2 * g ^ i) none = some b := by
      intro i _
      obtain ⟨b, hbb, -, -, -⟩ := round_up_spec (lb2 * g ^ i) none _ rfl
        (abs_pos.mpr (ne_of_gt (by positivity)))
      exact ⟨b, hbb⟩
    obtain ⟨l, hlbds, hllen, hlget⟩ := logBoundaries_spec lb2 g lin.bin_count hbexists
    have hlo : ∀ i, i < lin.bin_count + 1 →
        lb2 * g ^ i ≤ l.getD i 0 ∧ l.getD i 0 < 11 / 10 * (lb2 * g ^ i) :=
      fun i hi => round_up_lt_of_denSmooth (hxpos i) (hxds i) (hlget i hi)
    simp only [show logLowerBound (listMin (valuesOf vc)) = some lb2 from by
      rw [logLowerBound]; exact hlb2, hgup, hlbds]
    refine ⟨_, rfl, hcbc.symm, ?_, hlb2b, hl_cnt, hllen, ?_, ?_, ?_, ?_, ?_⟩
    · exact ⟨fun _ => ⟨hlowpos, by rwa [hcfb]⟩, fun _ => rfl⟩
    · apply chain'_of_getD
      intro i hi
      rw [hllen] at hi
      obtain ⟨ha1, ha2⟩ := hlo i (by omega)
      obtain ⟨hb1, hb2⟩ := hlo (i + 1) (by omega)
      have hstep : 11 / 10 * (lb2 * g ^ i) ≤ g * (lb2 * g ^ i) :=
        mul_le_mul_of_nonneg_right hge (hxpos i).le
      have hsucc : g * (lb2 * g ^ i) = lb2 * g ^ (i + 1) := by ring
      linarith
    · obtain ⟨hc1, -⟩ := hlo lin.bin_count (Nat.lt_succ_self _)
      have hgrow : totalGrowth (listMin (valuesOf vc)) (listMax (valuesOf vc)) =
          listMax (valuesOf vc) / lb2 := by
        rw [totalGrowth, show logLowerBound (listMin (valuesOf vc)) = some lb2 from by
          rw [logLowerBound]; exact hlb2]
        rfl
      have hpow' : listMax (valuesOf vc) / lb2 ≤ root ^ lin.bin_count := by
        rw [← hgrow, ← hcbc]; exact hpow
      have h1 : listMax (valuesOf vc) ≤ lb2 * root ^ lin.bin_count := by
        rw [div_le_iff₀ hlb2pos] at hpow'
        linarith
      have h2 : root ^ lin.bin_count ≤ g ^ lin.bin_count :=
        pow_le_pow_left₀ hrootpos.le hg1 _
      have h3 : lb2 * root ^ lin.bin_count ≤ lb2 * g ^ lin.bin_count :=
        mul_le_mul_of_nonneg_left h2 hlb2pos.le
      linarith
    · obtain ⟨hc1, -⟩ := hlo 1 (by omega)
      have : lb2 < lb2 * g ^ 1 := by
        rw [pow_one]
        nlinarith
      linarith
    · intro h; simp at h
    · intro _
      refine ⟨lb2, l.getD 0 0, hlb2, rfl, ?_, rfl⟩
      have h0 := hlget 0 (by omega)
      rwa [pow_zero, mul_one] at h0

/-! ### Permutation invariance: raw values versus grouped value/count pairs -/

theorem foldl_min_mem : ∀ (l : List ℚ) (a : ℚ), l.foldl min a ∈ a :: l := by
  intro l
  induction l with
  | nil => intro a; simp
  | cons b l ih =>
    intro a
    simp only [List.foldl_cons]
    rcases List.mem_cons.mp (ih (min a b)) with h | h
    · rw [h]
      rcases min_choice a b with hm | hm <;> rw [hm]
      · exact List.mem_cons_self _ _
      · exact List.mem_cons_of_mem _ (List.mem_cons_self _ _)
    · exact List.mem_cons_of_mem _ (List.mem_cons_of_mem _ h)

theorem foldl_max_mem : ∀ (l : List ℚ) (a : ℚ), l.foldl max a ∈ a :: l := by
  intro l
  induction l with
  | nil => intro a; simp
  | cons b l ih =>
    intro a
    simp only [List.foldl_cons]
    rcases List.mem_cons.mp (ih (max a b)) with h | h
    · rw [h]
      rcases max_choice a b with hm | hm <;> rw [hm]
      · exact List.mem_cons_self _ _
      · exact List.mem_cons_of_mem _ (List.mem_cons_self _ _)
    · exact List.mem_cons_of_mem _ (List.mem_cons_of_mem _ h)

theorem listMin_mem : ∀ {l : List ℚ}, l ≠ [] → listMin l ∈ l
  | [], h => absurd rfl h
  | v :: rest, _ => foldl_min_mem rest v

theorem listMax_mem : ∀ {l : List ℚ}, l ≠ [] → listMax l ∈ l
  | [], h => absurd rfl h
  | v :: rest, _ => foldl_max_mem rest v

theorem listMin_eq_of_perm {l l' : List ℚ} (h : l.Perm l') : listMin l = listMin l' := by
  rcases eq_or_ne l [] with rfl | hne
  · rw [h.symm.eq_nil]
  · have hne' : l' ≠ [] := fun he => hne (he ▸ h).eq_nil
    exact le_antisymm (listMin_le (h.mem_iff.mpr (listMin_mem hne')))
      (listMin_le (h.mem_iff.mp (listMin_mem hne)))

theorem listMax_eq_of_perm {l l' : List ℚ} (h : l.Perm l') : listMax l = listMax l' := by
  rcases eq_or_ne l [] with rfl | hne
  · rw [h.symm.eq_nil]
  · have hne' : l' ≠ [] := fun he => hne (he ▸ h).eq_nil
    exact le_antisymm (le_listMax (h.mem_iff.mp (listMax_mem hne)))
      (le_listMax (h.mem_iff.mpr (listMax_mem hne')))

theorem headI_fst_of_valuesOf {vc : List (ℚ × ℕ)} {v : ℚ}
    (hv : valuesOf vc = [v]) : vc.headI.1 = v := by
  match vc, hv with
  | (a, c) :: t, hv =>
    have ha : a ∈ valuesOf ((a, c) :: t) := by
      simp [valuesOf, List.mem_dedup]
    rw [hv] at ha
    simpa using ha

/-- The constructor depends on the value/count list only through
permutation-invariant quantities. -/
theorem autoBinsCounted_perm {vc vc' : List (ℚ × ℕ)} (hp : vc.Perm vc')
    (binCount? : Option ℕ) (root : ℚ) :
    autoBinsCounted vc binCount? root = autoBinsCounted vc' binCount? root := by
  have hvals : (valuesOf vc).Perm (valuesOf vc') := (hp.map Prod.fst).dedup
  have h1 : (valuesOf vc).length = (valuesOf vc').length := hvals.length_eq
  have h2 : listMin (valuesOf vc) = listMin (valuesOf vc') := listMin_eq_of_perm hvals
  have h3 : listMax (valuesOf vc) = listMax (valuesOf vc') := listMax_eq_of_perm hvals
  have h4 : totalCount vc = totalCount vc' := (hp.map Prod.snd).sum_eq
  have h5 : ∀ bound, numberInFirstBucket vc bound = numberInFirstBucket vc' bound :=
    fun bound => (((hp.filter _).map Prod.snd).sum_eq)
  have htb : targetBinCount vc binCount? = targetBinCount vc' binCount? := by
    cases binCount? <;> simp [targetBinCount, h4]
  have h6 : candidateLayout vc binCount? = candidateLayout vc' binCount? := by
    rw [candidateLayout, candidateLayout, h2, h3, htb]
  rcases eq_or_ne (valuesOf vc).length 1 with hlen1 | hlen1
  · obtain ⟨v, hv⟩ := List.length_eq_one.mp hlen1
    have hv' : valuesOf vc' = [v] := by
      rw [hv] at hvals
      exact List.perm_singleton.mp hvals.symm
    have hh1 : vc.headI.1 = v := headI_fst_of_valuesOf hv
    have hh2 : vc'.headI.1 = v := headI_fst_of_valuesOf hv'
    simp [autoBinsCounted, hv, hv', hh1, hh2]
  · have hlen1' : (valuesOf vc').length ≠ 1 := by omega
    simp only [autoBinsCounted]
    rw [if_neg hlen1, if_neg hlen1', h1, h4, h6]
    simp only [h2, h5]

theorem counts_decomp (vs : List ℚ) :
    ∀ vc' : List (ℚ × ℕ), (∀ p ∈ vc', p.2 = vs.count p.1) →
      vc' = (vc'.map Prod.fst).map (fun v => (v, vs.count v)) := by
  intro vc'
  induction vc' with
  | nil => intro _; rfl
  | cons p t ih =>
    intro h
    obtain ⟨a, c⟩ := p
    have hp : c = vs.count a := h (a, c) (List.mem_cons_self _ _)
    simp only [List.map_cons]
    rw [← hp, ← ih (fun q hq => h q (List.mem_cons_of_mem _ hq))]

/-! ### The claims -/

/-- Claim C2: for every `x ≠ 0` and tolerance `t > 0`, `round_up_to_nice(x, t)`
returns a value `r` with `x ≤ r ≤ x + t`, and symmetrically
`round_down_to_nice(x, t)` returns `r` with `x - t ≤ r ≤ x`. -/
theorem claim_C2_round_to_nice_contract (x t : ℚ) (_hx : x ≠ 0) (ht : 0 < t) :
    (∃ r, round_up_to_nice x (some t) = some r ∧ x ≤ r ∧ r ≤ x + t) ∧
    (∃ r, round_down_to_nice x (some t) = some r ∧ x - t ≤ r ∧ r ≤ x) := by
  obtain ⟨r, hr, h1, h2, -⟩ := round_up_spec x (some t) t rfl ht
  obtain ⟨r', hr', h1', h2', -⟩ := round_down_spec x (some t) t rfl ht
  exact ⟨⟨r, hr, h1, h2⟩, ⟨r', hr', h1', h2'⟩⟩

theorem claim_C2_round_to_nice_contract_witness :
    ((∃ r, round_up_to_nice 85 (some (17/2)) = some r ∧ 85 ≤ r ∧ r ≤ 85 + 17/2) ∧
     (∃ r, round_down_to_nice 85 (some (17/2)) = some r ∧ 85 - 17/2 ≤ r ∧ r ≤ 85)) :=
  claim_C2_round_to_nice_contract 85 (17/2) (by decide) (by decide)

/-- Claim C8: for every `x` and tolerance `t > 0` the quantum-shrinking loops
terminate: both rounding functions return a value, and giving the loop any
fuel beyond `3` changes nothing (the fuelled model is exact). -/
theorem claim_C8_loop_terminates (x t : ℚ) (ht : 0 < t) :
    (round_up_to_nice x (some t)).isSome = true ∧
    (round_down_to_nice x (some t)).isSome = true ∧
    ∀ fuel, 3 ≤ fuel →
      upLoop x t (niceQuantum t) 0 fuel = upLoop x t (niceQuantum t) 0 3 ∧
      downLoop x t (niceQuantum t) 0 fuel = downLoop x t (niceQuantum t) 0 3 := by
  obtain ⟨r, hr, -, -, -⟩ := round_up_spec x (some t) t rfl ht
  obtain ⟨r', hr', -, -, -⟩ := round_down_spec x (some t) t rfl ht
  refine ⟨by rw [hr]; rfl, by rw [hr']; rfl, ?_⟩
  intro fuel hfuel
  obtain ⟨u, hu⟩ := upLoop_total x t (niceQuantum t) (niceQuantum_pos t)
    (niceQuantum_div_ten_lt ht) 0
  obtain ⟨d, hdn⟩ := downLoop_total x t (niceQuantum t) (niceQuantum_pos t)
    (niceQuantum_div_ten_lt ht) 0
  rw [hu, hdn, upLoop_mono x t 3 fuel _ 0 u hfuel hu,
    downLoop_mono x t 3 fuel _ 0 d hfuel hdn]
  exact ⟨rfl, rfl⟩

theorem claim_C8_loop_terminates_witness :
    (round_up_to_nice 85 (some (17/2))).isSome = true ∧
    (round_down_to_nice 85 (some (17/2))).isSome = true ∧
    (upLoop 85 (17/2) (niceQuantum (17/2)) 0 7 = upLoop 85 (17/2) (niceQuantum (17/2)) 0 3 ∧
     downLoop 85 (17/2) (niceQuantum (17/2)) 0 7 = downLoop 85 (17/2) (niceQuantum (17/2)) 0 3) := by
  obtain ⟨h1, h2, h3⟩ := claim_C8_loop_terminates 85 (17/2) (by decide)
  exact ⟨h1, h2, h3 7 (by decide)⟩

/-- Claim C5: constructing `AutoBins` with both of `values` and
`values_and_counts`, with neither, or with an empty value set, raises a
usage error rather than returning a layout. -/
theorem claim_C5_usage_errors (vs : List ℚ) (vc : List (ℚ × ℕ))
    (binCount? : Option ℕ) (root : ℚ) :
    AutoBinsInit none none binCount? root =
      .error "Either values or values an counts should be set" ∧
    AutoBinsInit (some vs) (some vc) binCount? root =
      .error "Only one of values or values_and_counts should be set" ∧
    AutoBinsInit (some []) none binCount? root =
      .error "min() arg is an empty sequence" ∧
    AutoBinsInit none (some []) binCount? root =
      .error "min() arg is an empty sequence" :=
  ⟨rfl, rfl, rfl, rfl⟩

/-- Claim C4 fails on the code: with the single distinct value `5` the
degenerate layout has `lower_bound = 5`, not `0` as claimed. -/
theorem claim_C4_counterexample :
    (autoBinsCounted [(5, 3)] none 1).map AutoBins.lower_bound = .ok 5 ∧
    (5 : ℚ) ≠ 0 :=
  ⟨rfl, by decide⟩

/-- Claim C4, amended: with exactly one distinct value `v` the degenerate
layout is `lower_bound = v` (the value itself, not `0`), `bin_size = 0`,
`bin_count = 1`, `bin_boundaries = [v, v]`, linear mode — a fixed special
case. -/
theorem claim_C4_degenerate (vc : List (ℚ × ℕ)) (binCount? : Option ℕ)
    (root : ℚ) (v : ℚ) (hv : valuesOf vc = [v]) :
    autoBinsCounted vc binCount? root = .ok ⟨v, some 0, 1, [v, v], false⟩ := by
  have hhead : vc.headI.1 = v := by
    match vc, hv with
    | (a, c) :: t, hv =>
      have ha : a ∈ valuesOf ((a, c) :: t) := by
        simp [valuesOf, List.mem_dedup]
      rw [hv] at ha
      simpa using ha
  simp [autoBinsCounted, hv, hhead]

theorem claim_C4_degenerate_witness :
    autoBinsCounted [(5, 3)] none 1 = .ok ⟨5, some 0, 1, [5, 5], false⟩ :=
  claim_C4_degenerate [(5, 3)] none 1 5 (by decide)

/-- Claim C1: for every input with at least two distinct values (and the
constraints the real `root` satisfies), the constructed layout has
`lower_bound ≤ min(values)` and `max(values) ≤ bin_boundaries[bin_count]`,
in both modes, with the linear `bin_count` re-derived from the final
`lower_bound` and `bin_size` rather than the originally estimated count. -/
theorem claim_C1_layout_invariant (vc : List (ℚ × ℕ)) (binCount? : Option ℕ)
    (root : ℚ) (hd : 2 ≤ (valuesOf vc).length)
    (ht : binCount? = none → 0 < totalCount vc)
    (hb : 0 < targetBinCount vc binCount?)
    (hroot : 1 < root)
    (hpow : totalGrowth (listMin (valuesOf vc)) (listMax (valuesOf vc)) ≤
      root ^ candBinCount vc binCount?) :
    ∃ ab, autoBinsCounted vc binCount? root = .ok ab ∧
      ab.lower_bound ≤ listMin (valuesOf vc) ∧
      listMax (valuesOf vc) ≤ ab.bin_boundaries.getD ab.bin_count 0 ∧
      ab.bin_count = candBinCount vc binCount? ∧
      (ab.logarithmic = false →
        (ab.bin_count : ℤ) =
          ⌈(listMax (valuesOf vc) - ab.lower_bound) / ab.bin_size.getD 0⌉) := by
  obtain ⟨ab, h1, h2, h3, h4, h5, h6, h7, h8, h9, h10, h11⟩ :=
    autoBins_master vc binCount? root hd ht hb hroot hpow
  exact ⟨ab, h1, h4, h8, h2, fun hf => (h10 hf).2⟩

theorem claim_C1_layout_invariant_witness :
    ∃ ab, autoBinsCounted [(19, 3), (152, 1)] none 2 = .ok ab ∧
      ab.lower_bound ≤ listMin (valuesOf [(19, 3), (152, 1)]) ∧
      listMax (valuesOf [(19, 3), (152, 1)]) ≤ ab.bin_boundaries.getD ab.bin_count 0 ∧
      ab.bin_count = candBinCount [(19, 3), (152, 1)] none ∧
      (ab.logarithmic = false →
        (ab.bin_count : ℤ) =
          ⌈(listMax (valuesOf [(19, 3), (152, 1)]) - ab.lower_bound) / ab.bin_size.getD 0⌉) :=
  claim_C1_layout_invariant [(19, 3), (152, 1)] none 2 (by decide)
    (fun _ => by decide) (by decide) (by decide) (by decide)

theorem nat_half_lt_iff (a b : ℕ) : a / 2 < b ↔ (a : ℚ) / 2 < (b : ℚ) := by
  rw [Nat.div_lt_iff_lt_mul (by norm_num : 0 < 2),
    div_lt_iff₀ (by norm_num : (0:ℚ) < 2)]
  constructor <;> intro h <;> exact_mod_cast h

/-- Claim C3: `is_logarithmic()` returns true iff the minimum value is
strictly positive and the occurrences below the second boundary of the
candidate linear layout exceed half of the total occurrence count. -/
theorem claim_C3_log_mode_iff (vc : List (ℚ × ℕ)) (binCount? : Option ℕ)
    (root : ℚ) (hd : 2 ≤ (valuesOf vc).length)
    (ht : binCount? = none → 0 < totalCount vc)
    (hb : 0 < targetBinCount vc binCount?)
    (hroot : 1 < root)
    (hpow : totalGrowth (listMin (valuesOf vc)) (listMax (valuesOf vc)) ≤
      root ^ candBinCount vc binCount?) :
    ∃ ab, autoBinsCounted vc binCount? root = .ok ab ∧
      (ab.is_logarithmic = true ↔
        (0 < listMin (valuesOf vc) ∧
          (totalCount vc : ℚ) / 2 <
            (numberInFirstBucket vc (candFirstBoundary vc binCount?) : ℚ))) := by
  obtain ⟨ab, h1, -, h3, -⟩ := autoBins_master vc binCount? root hd ht hb hroot hpow
  refine ⟨ab, h1, ?_⟩
  rw [AutoBins.is_logarithmic, h3, nat_half_lt_iff]

theorem claim_C3_log_mode_iff_witness :
    ∃ ab, autoBinsCounted [(19, 3), (152, 1)] none 2 = .ok ab ∧
      (ab.is_logarithmic = true ↔
        (0 < listMin (valuesOf [(19, 3), (152, 1)]) ∧
          (totalCount [(19, 3), (152, 1)] : ℚ) / 2 <
            (numberInFirstBucket [(19, 3), (152, 1)]
              (candFirstBoundary [(19, 3), (152, 1)] none) : ℚ))) :=
  claim_C3_log_mode_iff [(19, 3), (152, 1)] none 2 (by decide)
    (fun _ => by decide) (by decide) (by decide) (by decide)

/-- Claim C6 fails on the code: for the input `{19: 3, 152: 1}` the layout is
logarithmic with `round_down_to_nice(min) = 19` but `bin_boundaries[0] = 20`,
so the boundary list does not start at `round_down_to_nice(min(values))`
(boundary `0` is `round_up_to_nice` of that value). -/
theorem claim_C6_counterexample :
    round_down_to_nice (listMin (valuesOf [(19, 3), (152, 1)])) none = some 19 ∧
    (autoBinsCounted [(19, 3), (152, 1)] none 2).map
      (fun ab => (ab.is_logarithmic, ab.bin_boundaries.getD 0 0)) = .ok (true, 20) ∧
    (20 : ℚ) ≠ 19 :=
  ⟨rfl, rfl, by decide⟩

/-- Claim C6, amended: whenever logarithmic mode is selected, the boundary
list has length `bin_count + 1`, is strictly increasing, starts at
`round_up_to_nice(round_down_to_nice(min(values)))` (not at
`round_down_to_nice(min(values))` itself), and its last element is at least
`max(values)`. -/
theorem claim_C6_log_layout (vc : List (ℚ × ℕ)) (binCount? : Option ℕ)
    (root : ℚ) (hd : 2 ≤ (valuesOf vc).length)
    (ht : binCount? = none → 0 < totalCount vc)
    (hb : 0 < targetBinCount vc binCount?)
    (hroot : 1 < root)
    (hpow : totalGrowth (listMin (valuesOf vc)) (listMax (valuesOf vc)) ≤
      root ^ candBinCount vc binCount?) :
    ∃ ab, autoBinsCounted vc binCount? root = .ok ab ∧
      (ab.logarithmic = true →
        ab.bin_boundaries.length = ab.bin_count + 1 ∧
        ab.bin_boundaries.Chain' (· < ·) ∧
        (∃ lb2 b0, round_down_to_nice (listMin (valuesOf vc)) none = some lb2 ∧
          ab.lower_bound = lb2 ∧ round_up_to_nice lb2 none = some b0 ∧
          ab.bin_boundaries.getD 0 0 = b0) ∧
        listMax (valuesOf vc) ≤ ab.bin_boundaries.getD ab.bin_count 0) := by
  obtain ⟨ab, h1, h2, h3, h4, h5, h6, h7, h8, h9, h10, h11⟩ :=
    autoBins_master vc binCount? root hd ht hb hroot hpow
  exact ⟨ab, h1, fun hf => ⟨h6, h7, h11 hf, h8⟩⟩

theorem claim_C6_log_layout_witness :
    ∃ ab, autoBinsCounted [(19, 3), (152, 1)] none 2 = .ok ab ∧
      (ab.logarithmic = true →
        ab.bin_boundaries.length = ab.bin_count + 1 ∧
        ab.bin_boundaries.Chain' (· < ·) ∧
        (∃ lb2 b0, round_down_to_nice (listMin (valuesOf [(19, 3), (152, 1)])) none
            = some lb2 ∧
          ab.lower_bound = lb2 ∧ round_up_to_nice lb2 none = some b0 ∧
          ab.bin_boundaries.getD 0 0 = b0) ∧
        listMax (valuesOf [(19, 3), (152, 1)]) ≤
          ab.bin_boundaries.getD ab.bin_count 0) :=
  claim_C6_log_layout [(19, 3), (152, 1)] none 2 (by decide)
    (fun _ => by decide) (by decide) (by decide) (by decide)

/-- Claim C7 fails on the code: for the logarithmic layout of
`{19: 3, 152: 1}` and the value `39/2`, `lower_bound = 19 ≤ 39/2` and
`get_bin_index_for_value` returns `0`, but `bin_boundaries[0] = 20 > 39/2`,
so `bin_boundaries[i] ≤ v` does not follow. -/
theorem claim_C7_counterexample :
    (autoBinsCounted [(19, 3), (152, 1)] none 2).map AutoBins.lower_bound = .ok 19 ∧
    (autoBinsCounted [(19, 3), (152, 1)] none 2).map
      (fun ab => ab.get_bin_index_for_value (39/2)) = .ok 0 ∧
    (autoBinsCounted [(19, 3), (152, 1)] none 2).map
      (fun ab => ab.bin_boundaries.getD 0 0) = .ok 20 ∧
    (19 : ℚ) ≤ 39/2 ∧ ¬ ((20 : ℚ) ≤ 39/2) :=
  ⟨rfl, rfl, rfl, by decide, by decide⟩

/-- Claim C7, amended: `get_bin_index_for_value(v)` returns the smallest
index `i < bin_count` with `v < bin_boundaries[i+1]` when one exists, and
`bin_count - 1` for `v` at or beyond the last boundary; the lower sandwich
`bin_boundaries[i] ≤ v` holds provided `bin_boundaries[0] ≤ v` (for linear
layouts `bin_boundaries[0] = lower_bound`, but for logarithmic layouts
`bin_boundaries[0]` can exceed `lower_bound`). -/
theorem claim_C7_bin_index (vc : List (ℚ × ℕ)) (binCount? : Option ℕ)
    (root : ℚ) (hd : 2 ≤ (valuesOf vc).length)
    (ht : binCount? = none → 0 < totalCount vc)
    (hb : 0 < targetBinCount vc binCount?)
    (hroot : 1 < root)
    (hpow : totalGrowth (listMin (valuesOf vc)) (listMax (valuesOf vc)) ≤
      root ^ candBinCount vc binCount?) (v : ℚ) :
    ∃ ab, autoBinsCounted vc binCount? root = .ok ab ∧
      ab.get_bin_index_for_value v < ab.bin_count ∧
      (∀ j, j < ab.bin_count → v < ab.bin_boundaries.getD (j + 1) 0 →
        ab.get_bin_index_for_value v ≤ j ∧
        v < ab.bin_boundaries.getD (ab.get_bin_index_for_value v + 1) 0) ∧
      (ab.bin_boundaries.getD ab.bin_count 0 ≤ v →
        ab.get_bin_index_for_value v = ab.bin_count - 1) ∧
      (ab.bin_boundaries.getD 0 0 ≤ v →
        ab.bin_boundaries.getD (ab.get_bin_index_for_value v) 0 ≤ v) := by
  obtain ⟨ab, h1, h2, h3, h4, h5, h6, h7, h8, h9, h10, h11⟩ :=
    autoBins_master vc binCount? root hd ht hb hroot hpow
  refine ⟨ab, h1, ?_, ?_, ?_, ?_⟩
  · exact binIndexLoop_lt _ _ _ (by omega) ab.bin_count 0
  · intro j hj hv
    have hPex : ∃ k, v < ab.bin_boundaries.getD (k + 1) 0 := ⟨j, hv⟩
    have hj0le : Nat.find hPex ≤ j := Nat.find_min' hPex hv
    have hj0 : v < ab.bin_boundaries.getD (Nat.find hPex + 1) 0 := Nat.find_spec hPex
    have hj0min : ∀ k, k < Nat.find hPex → ¬ v < ab.bin_boundaries.getD (k + 1) 0 :=
      fun k hk => Nat.find_min hPex hk
    have hidx : ab.get_bin_index_for_value v = Nat.find hPex :=
      binIndexLoop_first_hit ab.bin_boundaries v ab.bin_count ab.bin_count 0
        (Nat.find hPex) (by omega) (Nat.zero_le _) (by omega) hj0
        (fun k _ hk2 => hj0min k hk2)
    rw [hidx]
    exact ⟨hj0le, hj0⟩
  · intro hclamp
    apply binIndexLoop_all_miss ab.bin_boundaries v ab.bin_count ab.bin_count 0
    intro k _ hk2
    rcases eq_or_lt_of_le (by omega : k + 1 ≤ ab.bin_count) with heq | hlt
    · rw [heq]
      exact not_lt.mpr hclamp
    · have : ab.bin_boundaries.getD (k + 1) 0 < ab.bin_boundaries.getD ab.bin_count 0 :=
        getD_lt_getD_of_chain h7 hlt (by omega)
      exact not_lt.mpr (by linarith)
  · intro h0
    exact binIndexLoop_prev ab.bin_boundaries v ab.bin_count h6 h7 ab.bin_count 0
      (by omega) (by omega) h0

theorem claim_C7_bin_index_witness :
    ∃ ab, autoBinsCounted [(19, 3), (152, 1)] none 2 = .ok ab ∧
      ab.get_bin_index_for_value 50 < ab.bin_count ∧
      (∀ j, j < ab.bin_count → (50:ℚ) < ab.bin_boundaries.getD (j + 1) 0 →
        ab.get_bin_index_for_value 50 ≤ j ∧
        (50:ℚ) < ab.bin_boundaries.getD (ab.get_bin_index_for_value 50 + 1) 0) ∧
      (ab.bin_boundaries.getD ab.bin_count 0 ≤ 50 →
        ab.get_bin_index_for_value 50 = ab.bin_count - 1) ∧
      (ab.bin_boundaries.getD 0 0 ≤ 50 →
        ab.bin_boundaries.getD (ab.get_bin_index_for_value 50) 0 ≤ 50) :=
  claim_C7_bin_index [(19, 3), (152, 1)] none 2 (by decide)
    (fun _ => by decide) (by decide) (by decide) (by decide) 50

/-- Claim C10: `get_bin_index_for_value` is total over all rational inputs:
every index it can access is in range, the result is always below
`bin_count`, and every value below the second boundary — in particular every
value below `lower_bound` — is assigned bin `0`. -/
theorem claim_C10_index_total (vc : List (ℚ × ℕ)) (binCount? : Option ℕ)
    (root : ℚ) (hd : 2 ≤ (valuesOf vc).length)
    (ht : binCount? = none → 0 < totalCount vc)
    (hb : 0 < targetBinCount vc binCount?)
    (hroot : 1 < root)
    (hpow : totalGrowth (listMin (valuesOf vc)) (listMax (valuesOf vc)) ≤
      root ^ candBinCount vc binCount?) (v : ℚ) :
    ∃ ab, autoBinsCounted vc binCount? root = .ok ab ∧
      ab.get_bin_index_for_value v < ab.bin_count ∧
      (∀ i, i < ab.bin_count → i + 1 < ab.bin_boundaries.length) ∧
      (v < ab.bin_boundaries.getD 1 0 → ab.get_bin_index_for_value v = 0) ∧
      (v < ab.lower_bound → ab.get_bin_index_for_value v = 0) := by
  obtain ⟨ab, h1, h2, h3, h4, h5, h6, h7, h8, h9, h10, h11⟩ :=
    autoBins_master vc binCount? root hd ht hb hroot hpow
  have hfirst : ∀ hv : v < ab.bin_boundaries.getD 1 0,
      ab.get_bin_index_for_value v = 0 :=
    fun hv => binIndexLoop_first_hit ab.bin_boundaries v ab.bin_count ab.bin_count 0 0
      (by omega) le_rfl (by omega) hv (fun k hk1 hk2 => by omega)
  refine ⟨ab, h1, ?_, ?_, hfirst, ?_⟩
  · exact binIndexLoop_lt _ _ _ (by omega) ab.bin_count 0
  · intro i hi
    omega
  · intro hv
    exact hfirst (by linarith)

theorem claim_C10_index_total_witness :
    ∃ ab, autoBinsCounted [(19, 3), (152, 1)] none 2 = .ok ab ∧
      ab.get_bin_index_for_value (-5) < ab.bin_count ∧
      (∀ i, i < ab.bin_count → i + 1 < ab.bin_boundaries.length) ∧
      ((-5:ℚ) < ab.bin_boundaries.getD 1 0 → ab.get_bin_index_for_value (-5) = 0) ∧
      ((-5:ℚ) < ab.lower_bound → ab.get_bin_index_for_value (-5) = 0) :=
  claim_C10_index_total [(19, 3), (152, 1)] none 2 (by decide)
    (fun _ => by decide) (by decide) (by decide) (by decide) (-5)

/-- Claim C9: constructing `AutoBins` from a raw value list, and from any
value/count pair list obtained by grouping its equal values and counting
occurrences (duplicate-free first components carrying exactly the values of
the raw list, each paired with its number of occurrences, in any order),
produces the identical result — the same `Except` outcome, hence the same
mode, lower_bound, bin_size, bin_count and bin_boundaries. -/
theorem claim_C9_input_equivalence (vs : List ℚ) (vc' : List (ℚ × ℕ))
    (binCount? : Option ℕ) (root : ℚ)
    (hnd : (vc'.map Prod.fst).Nodup)
    (hmem1 : ∀ v ∈ vc'.map Prod.fst, v ∈ vs)
    (hmem2 : ∀ v ∈ vs, v ∈ vc'.map Prod.fst)
    (hcnt : ∀ p ∈ vc', p.2 = vs.count p.1) :
    AutoBinsInit none (some vc') binCount? root =
      AutoBinsInit (some vs) none binCount? root := by
  have hfsts : (vc'.map Prod.fst).Perm vs.dedup := by
    refine (List.perm_ext_iff_of_nodup hnd vs.nodup_dedup).mpr ?_
    intro x
    rw [List.mem_dedup]
    exact ⟨hmem1 x, hmem2 x⟩
  have hdec := counts_decomp vs vc' hcnt
  have hperm : vc'.Perm (groupCounts vs) := by
    have h := hfsts.map (fun v => (v, vs.count v))
    rw [← hdec] at h
    exact h
  show autoBinsCounted vc' binCount? root = autoBinsCounted (groupCounts vs) binCount? root
  exact autoBinsCounted_perm hperm binCount? root

theorem claim_C9_input_equivalence_witness :
    AutoBinsInit none (some [(2, 2), (1, 1)]) none 2 =
      AutoBinsInit (some [1, 2, 2]) none none 2 :=
  claim_C9_input_equivalence [1, 2, 2] [(2, 2), (1, 1)] none 2
    (by decide) (by decide) (by decide) (by decide)

-- sanity checks against the source's own unit tests (TestUtilities)
example : round_up_to_nice 85 none = some 90 := by decide
example : round_up_to_nice (118/10) none = some 12 := by decide
example : round_up_to_nice (799/1000) none = some (8/10) := by decide
example : round_up_to_nice (8/10) none = some (8/10) := by decide
example : round_up_to_nice (-11/10) none = some (-1) := by decide
example : round_up_to_nice (-799/1000) none = some (-75/100) := by decide
example : round_down_to_nice 0 none = some 0 := by decide
example : round_down_to_nice 85 none = some 80 := by decide
example : round_down_to_nice (118/10) none = some 11 := by decide
example : round_down_to_nice (8/10) none = some (8/10) := by decide
example : round_down_to_nice (801/1000) none = some (8/10) := by decide


end BStat
